import Mathlib

/-!
Verification development for the LogHeal multi-agent log-fix pipeline
(`orchestrator.py`).  The Python source is shallowly embedded: pure string
manipulation becomes functions over `List Char` / `String`, the effectful
steps (git subprocesses, file writes, completion calls, observer callbacks)
are driven by explicit environments recording which step succeeds, and a
trace of performed operations is returned alongside each result.  Python
exceptions are modelled by `Except PyErr`; an uncaught exception is an
`Except.error` result.
-/

namespace LogHeal

/-- Python exception kinds relevant to the pipeline. -/
inductive PyErr where
  | calledProcessError
  | osError
  | unboundLocalError
  | jsonDecodeError
  | valueError
  | callbackError
deriving DecidableEq

/-- `dataclass LogAnalysis` from `orchestrator.py`. -/
structure LogAnalysis where
  error_type : String
  error_message : String
  stack_trace : String
  affected_files : List String
  severity : String
  timestamp : String
deriving DecidableEq

/-- `dataclass Solution` from `orchestrator.py`. -/
structure Solution where
  description : String
  affected_files : List String
  code_changes : List (String × String)
  tests_needed : List String
deriving DecidableEq

/-- `dataclass GitOperation` from `orchestrator.py` (the spec's
`VersionControlResult`). -/
structure GitOperation where
  branch_name : String
  commit_message : String
  files_changed : List String
  success : Bool
deriving DecidableEq

/-- `dataclass ErrorContext` from `orchestrator.py`. -/
structure ErrorContext where
  error_location : String
  root_cause : String
  relevant_code : String
  summary : String
  relevant_files : List String
deriving DecidableEq

/-! ### Python string helpers -/

/-- Python `str.strip()` whitespace set (ASCII part). -/
def isPyWs (c : Char) : Bool :=
  c = ' ' || c = '\t' || c = '\n' || c = '\x0d' || c = '\x0b' || c = '\x0c'

/-- Python `str.strip()` on a character list. -/
def pyStrip (l : List Char) : List Char :=
  ((l.dropWhile isPyWs).reverse.dropWhile isPyWs).reverse

/-- Last component after splitting on a separator character; used to model
`'x/y'.split('/')[-1]` and `os.path.basename`. -/
def lastSplit (sep : Char) (s : List Char) : List Char :=
  match s with
  | [] => []
  | c :: rest =>
    let tail := lastSplit sep rest
    if c = sep then tail
    else match rest.find? (fun d => d = sep) with
      | some _ => tail
      | none => c :: rest

/-- `os.path.basename` over `/` and `\` separators (the source splits on
both). -/
def pyBasename (s : String) : String :=
  ⟨lastSplit '\\' (lastSplit '/' s.data)⟩

/-- `os.path.join(repo, p)` (POSIX flavour; the exact separator is
irrelevant to every claim). -/
def pyJoin (repo p : String) : String := repo ++ "/" ++ p

/-- Python-dict lookup on an insertion-ordered association list whose keys
are unique (as `dictSet` maintains): the first binding for the key. -/
def dictFind (l : List (String × α)) (k : String) : Option α :=
  match l with
  | [] => none
  | (k', v) :: rest => if k' = k then some v else dictFind rest k

/-- Python dict assignment `d[k] = v`: overwrite the value in place when the
key is present (keeping its position), else append — so a later write wins
while insertion order is preserved, exactly as for a Python dict. -/
def dictSet (l : List (String × α)) (k : String) (v : α) : List (String × α) :=
  match l with
  | [] => [(k, v)]
  | (k', v') :: rest =>
    if k' = k then (k, v) :: rest else (k', v') :: dictSet rest k v

/-! ### GitManagerAgent.create_fix_branch (orchestrator.py lines 587-686) -/

/-- Environment describing the outcome of each effectful step performed by
`create_fix_branch`: the `datetime.now()` timestamp, the exit status of each
git subprocess, the `git status --porcelain` output and, per resolved target
path, whether the `os.makedirs` + `open`/`write` step succeeds. -/
structure GitEnv where
  timestamp : String
  checkoutNewOk : Bool
  writeOk : String → Bool
  addOk : Bool
  statusStdout : String
  commitOk : Bool

/-- Git/file-system operations performed by `create_fix_branch`, in order. -/
inductive GitCmd where
  | checkoutNew (branch : String)
  | writeFile (path : String)
  | add
  | status
  | checkoutPrev
  | branchDelete (branch : String)
  | commit
deriving DecidableEq

/-- Branch-name slug: `error_type.lower().replace(' ', '-').replace('_', '-')`. -/
def slug (s : String) : String :=
  (s.map Char.toLower).map (fun c => if c = ' ' || c = '_' then '-' else c)

/-- `branch_name = f"fix/\x7berror_slug\x7d-\x7btimestamp\x7d"`. -/
def branchNameOf (env : GitEnv) (analysis : LogAnalysis) : String :=
  "fix/" ++ slug analysis.error_type ++ "-" ++ env.timestamp

/-- The commit message assembled at orchestrator.py lines 648-655. -/
def mkCommitMessage (a : LogAnalysis) : String :=
  "Fix: " ++ a.error_type ++ "\n\n" ++ a.error_message ++ "\n\nSeverity: "
    ++ a.severity ++ "\nAuto-generated fix by AI Agent System\nTimestamp: "
    ++ a.timestamp ++ "\n"

/-- Target-path resolution for one fixed file (lines 606-617): look the
basename up in the provider's `file_index` when a provider is present, fall
back to joining with the repo root when the lookup misses or yields a falsy
(empty) path. -/
def resolveFullPath (provider : Option (List (String × String)))
    (repoPath filePath : String) : String :=
  match provider with
  | none => pyJoin repoPath filePath
  | some idx =>
    match dictFind idx (pyBasename filePath) with
    | none => pyJoin repoPath filePath
    | some full => if full = "" then pyJoin repoPath filePath else full

/-- The write loop of `create_fix_branch` (lines 605-626).  A failing
`os.makedirs`/`open`/`write` raises `OSError`, which is *not* a
`subprocess.CalledProcessError` and therefore escapes the surrounding
`try`. -/
def writeAll (env : GitEnv) (provider : Option (List (String × String)))
    (repoPath : String) : List (String × String) → Except PyErr Unit × List GitCmd
  | [] => (.ok (), [])
  | (fp, _) :: rest =>
    let full := resolveFullPath provider repoPath fp
    if env.writeOk full then
      let r := writeAll env provider repoPath rest
      (r.1, GitCmd.writeFile full :: r.2)
    else (.error .osError, [])

/-- Shallow embedding of `GitManagerAgent.create_fix_branch`
(orchestrator.py lines 587-686).  Returns the Python-level outcome (a
returned `GitOperation`, or an uncaught exception) together with the list of
git/file operations that were performed.  `subprocess.run(..., check=True)`
failures and the explicitly raised commit failure are
`CalledProcessError`s caught by the `except` clause at line 679; a failing
file write raises `OSError`, which that clause does not catch. -/
def create_fix_branch (env : GitEnv) (analysis : LogAnalysis)
    (fixed_files : List (String × String))
    (provider : Option (List (String × String))) (repoPath : String) :
    Except PyErr GitOperation × List GitCmd :=
  let branch_name := branchNameOf env analysis
  if env.checkoutNewOk then
    match writeAll env provider repoPath fixed_files with
    | (.error e, wtr) => (.error e, GitCmd.checkoutNew branch_name :: wtr)
    | (.ok _, wtr) =>
      let tr0 := GitCmd.checkoutNew branch_name :: wtr
      if env.addOk then
        if pyStrip env.statusStdout.data = [] then
          (.ok ⟨"", "No changes to commit", [], false⟩,
            tr0 ++ [.add, .status, .checkoutPrev, .branchDelete branch_name])
        else if env.commitOk then
          (.ok ⟨branch_name, mkCommitMessage analysis,
              fixed_files.map Prod.fst, true⟩,
            tr0 ++ [.add, .status, .commit])
        else
          (.ok ⟨branch_name, "", [], false⟩, tr0 ++ [.add, .status, .commit])
      else
        (.ok ⟨branch_name, "", [], false⟩, tr0 ++ [.add])
  else
    (.ok ⟨branch_name, "", [], false⟩, [GitCmd.checkoutNew branch_name])

/-! ### CodebaseProvider queries (orchestrator.py lines 154-231)

The regular-expression engine is external library code; its outputs are
abstracted as parameters: `stackMatches` stands for the concatenation of the
four `re.findall(pattern, stack_trace)` result lists (each match giving its
first two groups — every pattern has at least two groups), and `capWords`
for `re.findall(r'\b[A-Z][a-zA-Z0-9]*\b', error_message)`.  The theorems
about `find_relevant_files` hold for *every* value of these parameters, so
they cover every behaviour of the real matcher. -/

/-- One element of the list returned by `find_relevant_files`. -/
structure Entry where
  path : String
  filename : String
  line : String
  content : String
  relevance : String
deriving DecidableEq

/-- The body of `CodebaseProvider._read_file_excerpt`'s `try` block
(lines 208-221); a failing `open`/`readlines` propagates as an error. -/
def readExcerptTry (fsRead : String → Except String (List String))
    (path : String) (ln : Option Nat) : Except String String := do
  let lines ← fsRead path
  match ln with
  | some n =>
    if 0 < n ∧ n ≤ lines.length then
      let start := n - 11
      let stop := min lines.length (n + 10)
      pure ("... (lines " ++ toString (start + 1) ++ "-" ++ toString stop
        ++ ") ...\n" ++ String.join ((lines.drop start).take (stop - start)))
    else
      pure ("... (first 20 lines) ...\n" ++ String.join (lines.take 20))
  | none => pure ("... (first 20 lines) ...\n" ++ String.join (lines.take 20))

/-- `CodebaseProvider._read_file_excerpt` (lines 206-223): the catch-all
`except` turns any read failure into an inline error excerpt. -/
def read_file_excerpt (fsRead : String → Except String (List String))
    (path : String) (ln : Option Nat) : String :=
  match readExcerptTry fsRead path ln with
  | .error e => "[Error reading file: " ++ e ++ "]"
  | .ok s => s

/-- Phase 1 of `find_relevant_files` (lines 161-187): stack-trace matches.
`seen` threads the `seen_paths` set (as an insertion-ordered list). -/
def stackPhase (fidx : List (String × String))
    (fsRead : String → Except String (List String)) :
    List (String × String) → List String → List Entry × List String
  | [], seen => ([], seen)
  | (g0, g1) :: rest, seen =>
    let filename := pyBasename g0
    match dictFind fidx filename with
    | none => stackPhase fidx fsRead rest seen
    | some fp =>
      if fp ∈ seen then stackPhase fidx fsRead rest seen
      else
        let content := read_file_excerpt fsRead fp g1.toNat?
        let r := stackPhase fidx fsRead rest (seen ++ [fp])
        (⟨fp, filename, g1, content, "stack_trace"⟩ :: r.1, r.2)

/-- Inner loop of phase 2: the first two `class_index` paths of one word
(lines 192-202). -/
def classPaths (fsRead : String → Except String (List String)) :
    List String → List String → List Entry × List String
  | [], seen => ([], seen)
  | fp :: rest, seen =>
    if fp ∈ seen then classPaths fsRead rest seen
    else
      let content := read_file_excerpt fsRead fp none
      let r := classPaths fsRead rest (seen ++ [fp])
      (⟨fp, pyBasename fp, "?", content, "class_match"⟩ :: r.1, r.2)

/-- Phase 2 of `find_relevant_files` (lines 189-202): capitalized words of
the error message looked up in `class_index`, first two paths each. -/
def classPhase (cidx : List (String × List String))
    (fsRead : String → Except String (List String)) :
    List String → List String → List Entry × List String
  | [], seen => ([], seen)
  | w :: rest, seen =>
    match dictFind cidx w with
    | none => classPhase cidx fsRead rest seen
    | some paths =>
      let r := classPaths fsRead (paths.take 2) seen
      let r' := classPhase cidx fsRead rest r.2
      (r.1 ++ r'.1, r'.2)

/-- `CodebaseProvider.find_relevant_files` (lines 154-204): stack-trace
entries first, then class matches, deduplicated via `seen_paths`, truncated
to `max_files`.  The function is total — every exception source in the body
is locally handled, which is claim C6's "never raises". -/
def find_relevant_files (fidx : List (String × String))
    (cidx : List (String × List String))
    (fsRead : String → Except String (List String))
    (stackMatches : List (String × String)) (capWords : List String)
    (max_files : Nat) : List Entry :=
  let s := stackPhase fidx fsRead stackMatches []
  let c := classPhase cidx fsRead capWords s.2
  (s.1 ++ c.1).take max_files

/-! ### ErrorLocatorAgent.locate_error (orchestrator.py lines 312-409) -/

/-- Per-file block of the `relevant_files_info` prompt section (line 342-343;
the running index number is abbreviated away — no claim inspects it). -/
def fileInfoLine (e : Entry) : String :=
  "\n" ++ e.filename ++ " (satır " ++ e.line ++ ") - " ++ e.relevance
    ++ "\n" ++ (⟨e.content.data.take 500⟩ : String) ++ "...\n"

/-- The error-localization prompt assembled inside the
`if codebase_provider:` branch (lines 348-375), abbreviated to the
data-carrying parts of the template. -/
def renderLocatePrompt (analysis : LogAnalysis) (files : List Entry) : String :=
  let info := if files.isEmpty then ""
    else "\n\nİlgili Dosyalar:\n" ++ String.join (files.map fileInfoLine)
  "Error Type: " ++ analysis.error_type ++ "\nError Message: "
    ++ analysis.error_message ++ "\nSeverity: " ++ analysis.severity
    ++ "\n\nStack Trace:\n" ++ analysis.stack_trace ++ info

/-- Environment for one `locate_error` call: the abstract matcher outputs and
index contents feeding `find_relevant_files`, and the outcome of the
completion call's strict-JSON parse (lines 377-395) — `parsed` gives the four
extracted fields with their defaults already applied, or the uncaught parse
exception.  Claim C8 concerns only the no-index path, which never reaches
the parse. -/
structure LocateEnv where
  fidx : List (String × String)
  cidx : List (String × List String)
  fsRead : String → Except String (List String)
  stackMatches : List (String × String)
  capWords : List String
  parsed : Except PyErr (String × String × String × String)

/-- Marker for one completion-endpoint call. -/
inductive LEv where
  | completionCall
deriving DecidableEq

/-- `ErrorLocatorAgent.locate_error` (lines 312-409).  The local variable
`prompt` is assigned only inside the `if codebase_provider:` branch
(lines 330-375); on the no-provider path the `self.call_claude(prompt, ...)`
at line 377 reads an unbound local, raising `UnboundLocalError` before any
completion call is made. -/
def locate_error (env : LocateEnv) (analysis : LogAnalysis)
    (hasProvider : Bool) : Except PyErr ErrorContext × List LEv :=
  let assembled : Option (String × List String) :=
    if hasProvider then
      let files := find_relevant_files env.fidx env.cidx env.fsRead
        env.stackMatches env.capWords 10
      some (renderLocatePrompt analysis files, files.map (·.path))
    else none
  match assembled with
  | none => (.error .unboundLocalError, [])
  | some (_prompt, paths) =>
    match env.parsed with
    | .error e => (.error e, [.completionCall])
    | .ok (loc, cause, code, summ) =>
      (.ok ⟨loc, cause, code, summ, paths⟩, [.completionCall])

/-! ### Orchestrator.process_logs (orchestrator.py lines 703-804)

Each stage agent performs one completion call and a strict-JSON parse; their
outcomes are supplied by the environment (`Except.error` = the stage raised,
which `process_logs` does not catch).  The trace records every agent
invocation and every observer-callback invocation in order. -/

/-- Pipeline events: stage-agent invocations and observer-callback calls. -/
inductive Ev where
  | analyzeCall
  | locateCall
  | proposeCall
  | generateCall
  | gitCall
  | cbCall (filename original fixed : String)
deriving DecidableEq

/-- Environment for one `process_logs` run. -/
structure PipeEnv where
  analyzeRes : Except PyErr LogAnalysis
  locateRes : Except PyErr ErrorContext
  proposeRes : Except PyErr Solution
  generateRes : Except PyErr (List (String × String))
  providerIndex : Option (List (String × String))
  getFileContent : String → String
  callbackRaises : String → String → String → Bool
  gitEnv : GitEnv
  repoPath : String

/-- The observer-callback loop (lines 770-776): for each fixed file whose
basename is in the provider's `file_index`, read the original content and
invoke the callback with `(filename, original, fixed)`.  The loop body is
not wrapped in any `try`: a raising callback propagates. -/
def runCallbacks (env : PipeEnv) (idx : List (String × String)) :
    List (String × String) → Except PyErr Unit × List Ev
  | [] => (.ok (), [])
  | (fp, fixedContent) :: rest =>
    let fn := pyBasename fp
    match dictFind idx fn with
    | none => runCallbacks env idx rest
    | some origPath =>
      let orig := env.getFileContent origPath
      if env.callbackRaises fn orig fixedContent then
        (.error .callbackError, [.cbCall fn orig fixedContent])
      else
        let r := runCallbacks env idx rest
        (r.1, .cbCall fn orig fixedContent :: r.2)

/-- `Orchestrator.process_logs` (lines 703-804).  `logs` only matters through
its emptiness (the line-717 gate); `hasCallback` models whether
`save_changes_callback` was supplied.  Stage outcomes come from `env`; the
git stage is the `create_fix_branch` embedding above. -/
def process_logs {α : Type} (env : PipeEnv) (logs : List α)
    (hasCallback : Bool) : Except PyErr GitOperation × List Ev :=
  if logs.isEmpty then (.ok ⟨"", "", [], false⟩, [])
  else match env.analyzeRes with
  | .error e => (.error e, [.analyzeCall])
  | .ok analysis =>
    match env.locateRes with
    | .error e => (.error e, [.analyzeCall, .locateCall])
    | .ok _ =>
      match env.proposeRes with
      | .error e => (.error e, [.analyzeCall, .locateCall, .proposeCall])
      | .ok solution =>
        if solution.affected_files.isEmpty then
          (.ok ⟨"", "", [], false⟩, [.analyzeCall, .locateCall, .proposeCall])
        else match env.generateRes with
        | .error e =>
          (.error e, [.analyzeCall, .locateCall, .proposeCall, .generateCall])
        | .ok fixed =>
          let pre := [Ev.analyzeCall, .locateCall, .proposeCall, .generateCall]
          let cbs := match hasCallback, env.providerIndex with
            | true, some idx => runCallbacks env idx fixed
            | _, _ => (.ok (), [])
          match cbs with
          | (.error e, ctr) => (.error e, pre ++ ctr)
          | (.ok _, ctr) =>
            if fixed.isEmpty then (.ok ⟨"", "", [], false⟩, pre ++ ctr)
            else
              let g := create_fix_branch env.gitEnv analysis fixed
                env.providerIndex env.repoPath
              (g.1, pre ++ ctr ++ [.gitCall])

/-! ### CodebaseProvider._build_index (orchestrator.py lines 116-152)

The three class-declaration patterns `class\s+(\w+)`, `interface\s+(\w+)`
and `public\s+class\s+(\w+)` share one shape: literal keywords separated by
`\s+`, followed by a captured `\w+`.  `findallK` implements Python
`re.findall` for exactly that shape: left-to-right scan, non-overlapping
matches, greedy runs (`\s` and `\w` are disjoint character classes, so
greediness needs no backtracking).  `\w` is modelled as ASCII
alphanumerics plus underscore, `\s` as the ASCII whitespace class. -/

/-- `\w` character class (ASCII fragment). -/
def wordChar (c : Char) : Bool := c.isAlphanum || c = '_'

/-- Pattern-is-a-prefix test for character lists. -/
def leadsWith : List Char → List Char → Bool
  | [], _ => true
  | _ :: _, [] => false
  | p :: ps, c :: cs => p = c && leadsWith ps cs

/-- Consume `kw₁ \s+ kw₂ \s+ …` from the front of `s`, returning the rest. -/
def matchKws : List (List Char) → List Char → Option (List Char)
  | [], s => some s
  | kw :: rest, s =>
    if leadsWith kw s then
      let t := s.drop kw.length
      if t.takeWhile isPyWs = [] then none
      else matchKws rest (t.dropWhile isPyWs)
    else none

/-- Try the pattern at the head of `s`: keywords, then a nonempty captured
`\w+` run; returns the capture and the remaining input. -/
def tryMatchK (kws : List (List Char)) (s : List Char) :
    Option (List Char × List Char) :=
  match matchKws kws s with
  | none => none
  | some t =>
    let cap := t.takeWhile wordChar
    if cap = [] then none else some (cap, t.dropWhile wordChar)

/-- Fuelled scan of `re.findall` for the keyword patterns. -/
def findallKF (kws : List (List Char)) : Nat → List Char → List (List Char)
  | 0, _ => []
  | _ + 1, [] => []
  | n + 1, c :: rest =>
    match tryMatchK kws (c :: rest) with
    | some (cap, rem) => cap :: findallKF kws n rem
    | none => findallKF kws n rest

/-- `re.findall` for one keyword pattern (fuel = input length suffices: every
step consumes at least one character). -/
def findallK (kws : List (List Char)) (s : List Char) : List (List Char) :=
  findallKF kws s.length s

/-- All class names found in one file's text by the three patterns of
`_build_index` (lines 139-146), in the order the source registers them. -/
def classMatchesOf (content : String) : List (List Char) :=
  findallK ["class".data] content.data
    ++ findallK ["interface".data] content.data
    ++ findallK ["public".data, "class".data] content.data

/-- Decidable form of "ends with the keyword `class` followed by a nonempty
whitespace run" — the one text shape in which `re.findall`'s non-overlapping
left-to-right scan can swallow a following `class Foo` declaration into an
earlier match's captured word. -/
def endsWithClassWs (pre : List Char) : Bool :=
  !(pre.reverse.takeWhile isPyWs).isEmpty
    && leadsWith ("class".data.reverse) (pre.reverse.dropWhile isPyWs)

/-- One file of the scanned source tree, as `Path` exposes it to
`_build_index`: directory parts, final name, suffix, the full path string,
and the `read_text` outcome (`none` = the read raised and the `except`
skips class extraction). -/
structure TreeFile where
  parts : List String
  name : String
  suffix : String
  path : String
  content : Option String
deriving DecidableEq

/-- The `excluded_dirs` deny-list (lines 121-123). -/
def excludedDirs : List String :=
  [".venv", "venv", "env", "node_modules", ".git", "__pycache__",
   "bin", "obj", "build", "dist", ".pytest_cache", ".mypy_cache",
   "site-packages", "Lib", "lib", "packages"]

/-- The default `file_extensions` allow-list (line 111). -/
def fileExtensions : List String :=
  [".py", ".java", ".cs", ".js", ".ts", ".go", ".rb"]

/-- Filter applied to each scanned path (lines 127-130): no deny-listed
directory component, and an allow-listed suffix. -/
def indexedFile (f : TreeFile) : Bool :=
  f.parts.all (fun p => !(excludedDirs.contains p))
    && fileExtensions.contains f.suffix

/-- `class_index` lookup result as the source uses it (missing key = no
registered paths). -/
def classLookup (ci : List (String × List String)) (k : String) : List String :=
  (dictFind ci k).getD []

/-- `class_index` registration (lines 148-150): create the entry on first
sight, then append the path in place (duplicates allowed). -/
def appendClass (ci : List (String × List String)) (k : String) (p : String) :
    List (String × List String) :=
  dictSet ci k (classLookup ci k ++ [p])

/-- One file's contribution to the two indices (lines 130-152). -/
def indexStep (acc : List (String × String) × List (String × List String))
    (f : TreeFile) :
    List (String × String) × List (String × List String) :=
  if indexedFile f then
    let fidx := dictSet acc.1 f.name f.path
    match f.content with
    | none => (fidx, acc.2)
    | some c =>
      (fidx, (classMatchesOf c).foldl
        (fun ci m => appendClass ci (⟨m⟩ : String) f.path) acc.2)
  else acc

/-- Fold of `indexStep` over the scanned tree in scan order. -/
def buildAux (acc : List (String × String) × List (String × List String)) :
    List TreeFile → List (String × String) × List (String × List String)
  | [] => acc
  | f :: rest => buildAux (indexStep acc f) rest

/-- `CodebaseProvider._build_index` (lines 116-152): `file_index` maps
filename to path (last write wins), `class_index` maps class name to the
list of paths registered for it, in discovery order. -/
def build_index (tree : List TreeFile) :
    List (String × String) × List (String × List String) :=
  buildAux ([], []) tree

/-! ### The shared JSON-reply parsing contract (orchestrator.py lines 269-291,
379-395, 490-505)

Every stage agent cleans the model reply with the same chain of
`str.replace` calls and `strip()`, parses it as JSON, unwraps a one-element
list, and requires a mapping.  `replF` is Python `str.replace(pat, '')`:
a single left-to-right pass over the original string removing
non-overlapping occurrences, the leftmost first, without rescanning the
result. -/

/-- Fuelled single-pass removal of every occurrence of `pat` (Python
`s.replace(pat, '')`); fuel = input length suffices for nonempty `pat`. -/
def replF (pat : List Char) : Nat → List Char → List Char
  | 0, s => s
  | n + 1, s =>
    if leadsWith pat s then replF pat n (s.drop pat.length)
    else match s with
      | [] => []
      | c :: t => c :: replF pat n t

/-- Python `s.replace(pat, '')`. -/
def repl (pat s : List Char) : List Char := replF pat s.length s

/-- The reply-cleaning chain (line 272):
`.replace('```json\n','').replace('```json','').replace('```\n','')
.replace('```','').strip()`. -/
def cleanResponse (r : List Char) : List Char :=
  pyStrip (repl "```".data (repl "```\n".data
    (repl "```json".data (repl "```json\n".data r))))

/-- JSON values as `json.loads` produces them, with number and string
lexemes kept raw (no claim computes with decoded numbers or escapes). -/
inductive Json where
  | null
  | bool (b : Bool)
  | num (lexeme : List Char)
  | str (raw : List Char)
  | arr (elems : List Json)
  | obj (fields : List (List Char × Json))

/-- JSON inter-token whitespace (the four characters `json.loads` skips). -/
def wsJson (c : Char) : Bool := c = ' ' || c = '\t' || c = '\n' || c = '\x0d'

/-- Skip inter-token whitespace. -/
def skipWs (s : List Char) : List Char := s.dropWhile wsJson

/-- Number-lexeme characters. -/
def numChar (c : Char) : Bool :=
  c.isDigit || c = '-' || c = '+' || c = '.' || c = 'e' || c = 'E'

/-- String-literal body parser, positioned after the opening quote; returns
the raw (still escaped) body and the input after the closing quote.  Raw
control characters are rejected as in `json.loads` strict mode; escape
sequences are consumed one escaped character at a time (slightly more
lenient than `json.loads` on malformed `\uXXXX`, which only enlarges the
set of accepted texts). -/
def parseStr : List Char → Option (List Char × List Char)
  | [] => none
  | c :: r =>
    if c = '"' then some ([], r)
    else if c.toNat < 32 then none
    else if c = '\\' then
      match r with
      | [] => none
      | e :: r' =>
        if e.toNat < 32 then none
        else (parseStr r').map (fun p => ('\\' :: e :: p.1, p.2))
    else (parseStr r).map (fun p => (c :: p.1, p.2))

/-- The `:`-then-value-then-continuation step shared by both object
parsers, split out so each parser stays a simple `if` cascade. -/
def parseMemberRest
    (pv : List Char → Option (Json × List Char))
    (pt : List Char → Option (List (List Char × Json) × List Char))
    (k : List Char) (r1 : List Char) :
    Option (List (List Char × Json) × List Char) :=
  match skipWs r1 with
  | [] => none
  | c2 :: r2 =>
    if c2 = ':' then
      match pv (skipWs r2) with
      | none => none
      | some (v, r3) =>
        match pt (skipWs r3) with
        | none => none
        | some (kvs, r4) => some ((k, v) :: kvs, r4)
    else none

mutual

/-- Fuelled JSON value parser (recursive descent, as `json.loads`). -/
def parseVal : Nat → List Char → Option (Json × List Char)
  | 0, _ => none
  | n + 1, s =>
    if leadsWith "null".data s then some (.null, s.drop 4)
    else if leadsWith "true".data s then some (.bool true, s.drop 4)
    else if leadsWith "false".data s then some (.bool false, s.drop 5)
    else match s with
    | [] => none
    | c :: r =>
      if c = '"' then (parseStr r).map (fun p => (.str p.1, p.2))
      else if c = '[' then parseArr n (skipWs r)
      else if c = '\x7b' then parseObj n (skipWs r)
      else if c.isDigit || c = '-' then
        some (.num ((c :: r).takeWhile numChar), (c :: r).dropWhile numChar)
      else none

/-- Array body, positioned after `[` and leading whitespace. -/
def parseArr : Nat → List Char → Option (Json × List Char)
  | 0, _ => none
  | n + 1, s =>
    match s with
    | [] => none
    | c :: r =>
      if c = ']' then some (.arr [], r)
      else
        match parseVal n (c :: r) with
        | none => none
        | some (v, r2) =>
          match parseArrTail n (skipWs r2) with
          | none => none
          | some (vs, r3) => some (.arr (v :: vs), r3)

/-- Array continuation, positioned at `,` or `]`. -/
def parseArrTail : Nat → List Char → Option (List Json × List Char)
  | 0, _ => none
  | n + 1, s =>
    match s with
    | [] => none
    | c :: r =>
      if c = ']' then some ([], r)
      else if c = ',' then
        match parseVal n (skipWs r) with
        | none => none
        | some (v, r2) =>
          match parseArrTail n (skipWs r2) with
          | none => none
          | some (vs, r3) => some (v :: vs, r3)
      else none

/-- Object body, positioned after `{` and leading whitespace. -/
def parseObj : Nat → List Char → Option (Json × List Char)
  | 0, _ => none
  | n + 1, s =>
    match s with
    | [] => none
    | c :: r =>
      if c = '\x7d' then some (.obj [], r)
      else if c = '"' then
        match parseStr r with
        | none => none
        | some (k, r1) =>
          match parseMemberRest (parseVal n) (parseObjTail n) k r1 with
          | none => none
          | some (kvs, r4) => some (.obj kvs, r4)
      else none

/-- Object continuation, positioned at `,` or `}`. -/
def parseObjTail : Nat → List Char → Option (List (List Char × Json) × List Char)
  | 0, _ => none
  | n + 1, s =>
    match s with
    | [] => none
    | c :: r =>
      if c = '\x7d' then some ([], r)
      else if c = ',' then
        match skipWs r with
        | [] => none
        | c1 :: r1 =>
          if c1 = '"' then
            match parseStr r1 with
            | none => none
            | some (k, r2) => parseMemberRest (parseVal n) (parseObjTail n) k r2
          else none
      else none

end

/-- `json.loads` on a whole text: one value surrounded by whitespace only.
The fuel `2 * length + 2` is ample for the descent. -/
def jsonParse (s : List Char) : Option Json :=
  match parseVal (2 * s.length + 2) (skipWs s) with
  | none => none
  | some (v, rest) => if skipWs rest = [] then some v else none

/-- The `isinstance(data, list)` unwrapping (lines 276-277): a list becomes
its first element, an empty list the empty mapping. -/
def listFix : Json → Json
  | .arr [] => .obj []
  | .arr (x :: _) => x
  | d => d

/-- The final mapping requirement (lines 280-282): a non-mapping raises. -/
def elemToFields : Json → Option (List (List Char × Json))
  | .obj fs => some fs
  | _ => none

/-- The full shared stage-agent reply parse: clean, `json.loads`,
list-unwrap, require a mapping.  `none` is a raised
`JSONDecodeError`/`ValueError`. -/
def stageParse (r : List Char) : Option (List (List Char × Json)) :=
  match jsonParse (cleanResponse r) with
  | none => none
  | some d => elemToFields (listFix d)

/-- A reply consisting of JSON text wrapped in code-fence markers. -/
def fenceWrap (J : List Char) : List Char :=
  "```json\n".data ++ J ++ "\n```".data

/-- `pat` occurs as a contiguous substring of `s`. -/
def OccursIn (pat s : List Char) : Prop :=
  ∃ u v, s = u ++ (pat ++ v)

/-- The backtick invariant of JSON texts: every backtick is inside a string
literal, witnessed by a following quote with no quote and no raw control
character in between.  It is exactly what makes the code-fence cleaning
chain leave a valid JSON text intact. -/
def Good (l : List Char) : Prop :=
  ∀ pre suf, l = pre ++ '`' :: suf →
    ∃ mid rest, suf = mid ++ '"' :: rest
      ∧ ∀ c ∈ mid, c ≠ '"' ∧ 32 ≤ c.toNat

/-- `Chunked pat s out`: `out` is obtained from `s` by deleting some
non-overlapping occurrences of `pat`; the graph of every single-pass
`replace(pat, '')`, relaxed enough for easy induction. -/
inductive Chunked (pat : List Char) : List Char → List Char → Prop where
  | nil : Chunked pat [] []
  | keep (c : Char) (s out : List Char) :
      Chunked pat s out → Chunked pat (c :: s) (c :: out)
  | skip (s out : List Char) :
      Chunked pat s out → Chunked pat (pat ++ s) out

/-! ### Concrete instances used by counterexamples and witnesses -/

/-- Is an event an observer-callback invocation? -/
def isCbCall : Ev → Bool
  | .cbCall _ _ _ => true
  | _ => false

/-- The callback invocations the source performs for a fixed-file list: one
per file whose basename resolves in `file_index`, with
`(filename, original, fixed)`. -/
def expectedCbs (env : PipeEnv) (idx : List (String × String))
    (fixed : List (String × String)) : List Ev :=
  fixed.filterMap (fun p =>
    match dictFind idx (pyBasename p.1) with
    | none => none
    | some op => some (.cbCall (pyBasename p.1) (env.getFileContent op) p.2))

/-- Sample analysis used by concrete instances below. -/
def analysisNPE : LogAnalysis :=
  ⟨"NullPointerException", "npe", "tr", [], "high", "2025-01-01T00:00:00"⟩

/-- Environment in which every git step succeeds but the file write fails. -/
def envWriteFail : GitEnv :=
  ⟨"20250101-120000", true, fun _ => false, true, " M A.java", true⟩

/-- Environment in which everything up to and including `git add` succeeds,
the tree is dirty, and `git commit` exits non-zero. -/
def envCommitFail : GitEnv :=
  ⟨"20250101-120000", true, fun _ => true, true, " M A.java", false⟩

/-- Sample error context. -/
def ecSample : ErrorContext := ⟨"l", "r", "c", "s", []⟩

/-- Solution with no affected files (the early-exit signal). -/
def solutionEmptyFiles : Solution := ⟨"d", [], [], []⟩

/-- Solution targeting one file. -/
def solutionA : Solution := ⟨"d", ["A.java"], [], []⟩

/-- Pipeline run whose proposal stage yields an empty affected-file list. -/
def envC3 : PipeEnv :=
  ⟨.ok analysisNPE, .ok ecSample, .ok solutionEmptyFiles, .ok [], none,
    fun _ => "", fun _ _ _ => false, envCommitFail, "."⟩

/-- Pipeline run with one fixed, indexed file whose observer callback
raises. -/
def envCbRaise : PipeEnv :=
  ⟨.ok analysisNPE, .ok ecSample, .ok solutionA, .ok [("A.java", "new")],
    some [("A.java", "/repo/A.java")], fun _ => "orig",
    fun _ _ _ => true, envCommitFail, "."⟩

/-- Pipeline run with one fixed file whose basename is *not* in the
provider's `file_index`. -/
def envCbNoIdx : PipeEnv :=
  ⟨.ok analysisNPE, .ok ecSample, .ok solutionA, .ok [("A.java", "new")],
    some [], fun _ => "orig", fun _ _ _ => false, envCommitFail, "."⟩

/-- Pipeline run with one fixed, indexed file and a non-raising callback. -/
def envCbOk : PipeEnv :=
  ⟨.ok analysisNPE, .ok ecSample, .ok solutionA, .ok [("A.java", "new")],
    some [("A.java", "/repo/A.java")], fun _ => "orig",
    fun _ _ _ => false, envCommitFail, "."⟩

/-- A one-file source tree: `Foo.java` declaring `public class Foo`. -/
def treeFoo : List TreeFile :=
  [⟨[], "Foo.java", ".java", "/t/Foo.java", some "public class Foo \x7b\x7d"⟩]

/-- File system in which every read raises. -/
def fsBoom : String → Except String (List String) := fun _ => .error "boom"

/-- One-file file index used by concrete retrieval instances. -/
def fidxA : List (String × String) := [("A.java", "/r/A.java")]

/-- One stack-trace match (groups `("A.java", "12")`). -/
def smA : List (String × String) := [("A.java", "12")]

/-- The entry `find_relevant_files` produces for `smA` over `fsBoom`. -/
def entryBoom : Entry :=
  ⟨"/r/A.java", "A.java", "12", "[Error reading file: boom]", "stack_trace"⟩

/-! ## Theorems -/

/-! ### Git-stage lemmas -/

theorem writeAll_ok (env : GitEnv) (provider : Option (List (String × String)))
    (repo : String) (files : List (String × String))
    (h : ∀ p ∈ files, env.writeOk (resolveFullPath provider repo p.1) = true) :
    writeAll env provider repo files =
      (.ok (), files.map (fun p => GitCmd.writeFile (resolveFullPath provider repo p.1))) := by
  induction files with
  | nil => rfl
  | cons q rest ih =>
    obtain ⟨fq, c⟩ := q
    have hq : env.writeOk (resolveFullPath provider repo fq) = true :=
      h (fq, c) (by simp)
    have hrest := ih (fun p hp => h p (by simp [hp]))
    simp [writeAll, hq, hrest]

theorem writeAll_error (env : GitEnv) (provider : Option (List (String × String)))
    (repo : String) (files : List (String × String)) (p : String × String)
    (hp : p ∈ files)
    (hw : env.writeOk (resolveFullPath provider repo p.1) = false) :
    (writeAll env provider repo files).1 = .error .osError := by
  induction files with
  | nil => simp at hp
  | cons q rest ih =>
    obtain ⟨fq, c⟩ := q
    by_cases hq : env.writeOk (resolveFullPath provider repo fq) = true
    · rcases List.mem_cons.mp hp with h1 | h2
      · rw [h1] at hw; rw [hw] at hq; cases hq
      · simp [writeAll, hq, ih h2]
    · simp [writeAll, hq]

theorem branchNameOf_ne_empty (env : GitEnv) (a : LogAnalysis) :
    branchNameOf env a ≠ "" := by
  intro h
  have h2 := congrArg String.length h
  simp only [branchNameOf, String.length_append] at h2
  have h3 : "fix/".length = 4 := rfl
  have h0 : "".length = 0 := rfl
  rw [h3, h0] at h2
  omega

/-- C1, counterexample.  With branch creation, `git add` and `git commit`
all able to succeed but the write of the single fixed file failing, the
raised `OSError` escapes `create_fix_branch` (only
`subprocess.CalledProcessError` is caught), so no `VersionControlResult`
with `success=false` is returned, contrary to the claim. -/
theorem create_fix_branch_write_failure_not_reported :
    ¬ ∃ r : GitOperation,
      (create_fix_branch envWriteFail analysisNPE [("A.java", "fixed")] none ".").1
        = .ok r ∧ r.success = false := by
  rintro ⟨r, hr, -⟩
  have h : (create_fix_branch envWriteFail analysisNPE [("A.java", "fixed")] none ".").1
      = .error .osError := rfl
  rw [h] at hr
  cases hr

/-- C1, amended.  For every analysis, non-empty fixed-file map and
environment: `create_fix_branch` returns `success=false` whenever branch
creation fails, whenever `git add` fails, whenever there is nothing to
commit, and whenever the commit fails; it never returns `success=true` in
any failure case; but when writing a fixed file fails it raises an uncaught
`OSError` and returns no result at all. -/
theorem create_fix_branch_failure_modes (env : GitEnv) (analysis : LogAnalysis)
    (files : List (String × String)) (provider : Option (List (String × String)))
    (repo : String) (_hne : files ≠ []) :
    (∀ r, (create_fix_branch env analysis files provider repo).1 = .ok r →
        r.success = true →
        env.checkoutNewOk = true ∧ env.addOk = true
          ∧ pyStrip env.statusStdout.data ≠ [] ∧ env.commitOk = true)
    ∧ (env.checkoutNewOk = false →
        (create_fix_branch env analysis files provider repo).1
          = .ok ⟨branchNameOf env analysis, "", [], false⟩)
    ∧ ((∃ p ∈ files, env.writeOk (resolveFullPath provider repo p.1) = false) →
        env.checkoutNewOk = true →
        (create_fix_branch env analysis files provider repo).1 = .error .osError)
    ∧ ((∀ p ∈ files, env.writeOk (resolveFullPath provider repo p.1) = true) →
        env.checkoutNewOk = true → env.addOk = false →
        (create_fix_branch env analysis files provider repo).1
          = .ok ⟨branchNameOf env analysis, "", [], false⟩)
    ∧ ((∀ p ∈ files, env.writeOk (resolveFullPath provider repo p.1) = true) →
        env.checkoutNewOk = true → env.addOk = true →
        pyStrip env.statusStdout.data = [] →
        (create_fix_branch env analysis files provider repo).1
          = .ok ⟨"", "No changes to commit", [], false⟩)
    ∧ ((∀ p ∈ files, env.writeOk (resolveFullPath provider repo p.1) = true) →
        env.checkoutNewOk = true → env.addOk = true →
        pyStrip env.statusStdout.data ≠ [] → env.commitOk = false →
        (create_fix_branch env analysis files provider repo).1
          = .ok ⟨branchNameOf env analysis, "", [], false⟩) := by
  refine ⟨?_, ?_, ?_, ?_, ?_, ?_⟩
  · intro r h hs
    cases hco : env.checkoutNewOk with
    | false =>
      simp [create_fix_branch, hco] at h
      rw [← h] at hs; cases hs
    | true =>
      rcases hW : writeAll env provider repo files with ⟨res, wtr⟩
      cases res with
      | error e => simp [create_fix_branch, hco, hW] at h
      | ok u =>
        cases hao : env.addOk with
        | false =>
          simp [create_fix_branch, hco, hW, hao] at h
          rw [← h] at hs; cases hs
        | true =>
          by_cases hst : pyStrip env.statusStdout.data = []
          · simp [create_fix_branch, hco, hW, hao, hst] at h
            rw [← h] at hs; cases hs
          · cases hcm : env.commitOk with
            | false =>
              simp [create_fix_branch, hco, hW, hao, hst, hcm] at h
              rw [← h] at hs; cases hs
            | true => exact ⟨rfl, rfl, hst, rfl⟩
  · intro hco
    simp [create_fix_branch, hco]
  · rintro ⟨p, hp, hw⟩ hco
    have h1 := writeAll_error env provider repo files p hp hw
    rcases hW : writeAll env provider repo files with ⟨res, wtr⟩
    rw [hW] at h1
    simp at h1
    rw [h1] at hW
    simp [create_fix_branch, hco, hW]
  · intro hws hco hao
    have hW := writeAll_ok env provider repo files hws
    simp [create_fix_branch, hco, hW, hao]
  · intro hws hco hao hst
    have hW := writeAll_ok env provider repo files hws
    simp [create_fix_branch, hco, hW, hao, hst]
  · intro hws hco hao hst hcm
    have hW := writeAll_ok env provider repo files hws
    simp [create_fix_branch, hco, hW, hao, hst, hcm]

/-- C1 witness: the amended theorem applied at a concrete commit-failure
environment. -/
theorem create_fix_branch_failure_modes_witness :
    (create_fix_branch envCommitFail analysisNPE [("A.java", "y")] none ".").1
      = .ok ⟨branchNameOf envCommitFail analysisNPE, "", [], false⟩ :=
  (create_fix_branch_failure_modes envCommitFail analysisNPE [("A.java", "y")]
    none "." (by decide)).2.2.2.2.2
    (fun p _ => rfl) rfl rfl (by decide) rfl

/-- C10.  When a git subprocess step fails after the branch was created
(`git add`, or the commit itself on a dirty tree), the caught
`CalledProcessError` yields `success=false` with the *new* branch name
(non-empty), empty commit message and empty file list; the trace contains
no branch deletion and no checkout away from the new branch. -/
theorem create_fix_branch_post_creation_failure (env : GitEnv)
    (analysis : LogAnalysis) (files : List (String × String))
    (provider : Option (List (String × String))) (repo : String)
    (hws : ∀ p ∈ files, env.writeOk (resolveFullPath provider repo p.1) = true)
    (hco : env.checkoutNewOk = true)
    (hfail : env.addOk = false
      ∨ (pyStrip env.statusStdout.data ≠ [] ∧ env.commitOk = false)) :
    (create_fix_branch env analysis files provider repo).1
        = .ok ⟨branchNameOf env analysis, "", [], false⟩
      ∧ branchNameOf env analysis ≠ ""
      ∧ (∀ b, GitCmd.branchDelete b ∉ (create_fix_branch env analysis files provider repo).2)
      ∧ GitCmd.checkoutPrev ∉ (create_fix_branch env analysis files provider repo).2
      ∧ GitCmd.checkoutNew (branchNameOf env analysis)
          ∈ (create_fix_branch env analysis files provider repo).2 := by
  have hW := writeAll_ok env provider repo files hws
  rcases hfail with hao | ⟨hst, hcm⟩
  · refine ⟨by simp [create_fix_branch, hco, hW, hao],
      branchNameOf_ne_empty env analysis, ?_, ?_, ?_⟩
    · intro b
      simp [create_fix_branch, hco, hW, hao, List.mem_map]
    · simp [create_fix_branch, hco, hW, hao, List.mem_map]
    · simp [create_fix_branch, hco, hW, hao]
  · cases hao : env.addOk with
    | false =>
      refine ⟨by simp [create_fix_branch, hco, hW, hao],
        branchNameOf_ne_empty env analysis, ?_, ?_, ?_⟩
      · intro b
        simp [create_fix_branch, hco, hW, hao, List.mem_map]
      · simp [create_fix_branch, hco, hW, hao, List.mem_map]
      · simp [create_fix_branch, hco, hW, hao]
    | true =>
      refine ⟨by simp [create_fix_branch, hco, hW, hao, hst, hcm],
        branchNameOf_ne_empty env analysis, ?_, ?_, ?_⟩
      · intro b
        simp [create_fix_branch, hco, hW, hao, hst, hcm, List.mem_map]
      · simp [create_fix_branch, hco, hW, hao, hst, hcm, List.mem_map]
      · simp [create_fix_branch, hco, hW, hao, hst, hcm]

/-- C10 witness: the theorem applied at the concrete commit-failure
environment. -/
theorem create_fix_branch_post_creation_failure_witness :
    (create_fix_branch envCommitFail analysisNPE [("A.java", "y")] none ".").1
        = .ok ⟨branchNameOf envCommitFail analysisNPE, "", [], false⟩
      ∧ GitCmd.checkoutPrev
          ∉ (create_fix_branch envCommitFail analysisNPE [("A.java", "y")] none ".").2 :=
  ⟨(create_fix_branch_post_creation_failure envCommitFail analysisNPE
      [("A.java", "y")] none "." (fun p _ => rfl) rfl
      (Or.inr ⟨by decide, rfl⟩)).1,
   (create_fix_branch_post_creation_failure envCommitFail analysisNPE
      [("A.java", "y")] none "." (fun p _ => rfl) rfl
      (Or.inr ⟨by decide, rfl⟩)).2.2.2.1⟩

/-! ### Orchestrator claims -/

/-- C2.  An empty log batch makes `process_logs` return
`success=false, branch_name="", files_changed=[]` (and an empty commit
message) at the line-717 gate, with an empty event trace: no stage agent is
invoked, no completion call and no git operation occurs. -/
theorem process_logs_empty_batch (α : Type) (env : PipeEnv) (hasCb : Bool) :
    process_logs env ([] : List α) hasCb = (.ok ⟨"", "", [], false⟩, []) := rfl

/-- C3.  If the proposal stage returns a `Solution` with an empty
`affected_files` list, the run stops right after the proposal with a
`success=false` result; neither the code-generation stage nor the git stage
is ever invoked. -/
theorem process_logs_empty_affected_files (α : Type) (env : PipeEnv)
    (logs : List α) (hasCb : Bool) (a : LogAnalysis) (ec : ErrorContext)
    (sol : Solution) (hlogs : logs ≠ [])
    (ha : env.analyzeRes = .ok a) (hl : env.locateRes = .ok ec)
    (hp : env.proposeRes = .ok sol) (hs : sol.affected_files = []) :
    process_logs env logs hasCb
        = (.ok ⟨"", "", [], false⟩, [.analyzeCall, .locateCall, .proposeCall])
      ∧ Ev.generateCall ∉ (process_logs env logs hasCb).2
      ∧ Ev.gitCall ∉ (process_logs env logs hasCb).2 := by
  have hne : logs.isEmpty = false := by
    cases logs with
    | nil => exact absurd rfl hlogs
    | cons x t => rfl
  have heq : process_logs env logs hasCb
      = (.ok ⟨"", "", [], false⟩, [.analyzeCall, .locateCall, .proposeCall]) := by
    simp [process_logs, hne, ha, hl, hp, hs]
  refine ⟨heq, ?_, ?_⟩ <;> rw [heq] <;> decide

/-- C3 witness: the theorem applied to a concrete run whose proposal has no
affected files. -/
theorem process_logs_empty_affected_files_witness :
    process_logs envC3 ["log"] false
        = (.ok ⟨"", "", [], false⟩, [.analyzeCall, .locateCall, .proposeCall])
      ∧ Ev.generateCall ∉ (process_logs envC3 ["log"] false).2 :=
  ⟨(process_logs_empty_affected_files String envC3 ["log"] false analysisNPE
      ecSample solutionEmptyFiles (by decide) rfl rfl rfl rfl).1,
   (process_logs_empty_affected_files String envC3 ["log"] false analysisNPE
      ecSample solutionEmptyFiles (by decide) rfl rfl rfl rfl).2.1⟩

/-- Callback loop with a never-raising callback: one invocation per fixed
file whose basename resolves in `file_index`. -/
theorem runCallbacks_no_raise (env : PipeEnv) (idx : List (String × String))
    (h : ∀ x y z, env.callbackRaises x y z = false) :
    ∀ fixed, runCallbacks env idx fixed = (.ok (), expectedCbs env idx fixed) := by
  intro fixed
  induction fixed with
  | nil => rfl
  | cons p rest ih =>
    obtain ⟨fp, fc⟩ := p
    cases hf : dictFind idx (pyBasename fp) with
    | none => simp [runCallbacks, expectedCbs, hf, ih, List.filterMap_cons]
    | some op =>
      simp [runCallbacks, expectedCbs, hf, h, ih, List.filterMap_cons]

/-- Every event emitted by the callback loop is a callback invocation. -/
theorem runCallbacks_all_cb (env : PipeEnv) (idx : List (String × String)) :
    ∀ fixed, ∀ e ∈ (runCallbacks env idx fixed).2, isCbCall e = true := by
  intro fixed
  induction fixed with
  | nil => intro e he; simp [runCallbacks] at he
  | cons p rest ih =>
    obtain ⟨fp, fc⟩ := p
    intro e he
    cases hf : dictFind idx (pyBasename fp) with
    | none =>
      rw [runCallbacks, hf] at he
      exact ih e he
    | some op =>
      rw [runCallbacks, hf] at he
      by_cases hr : env.callbackRaises (pyBasename fp)
          (env.getFileContent op) fc = true
      · simp [hr] at he
        rw [he]; rfl
      · simp [hr] at he
        rcases he with he | he
        · rw [he]; rfl
        · exact ih e he

/-- C5, counterexample.  First run: the single fixed file is indexed and the
callback raises — the exception propagates, `process_logs` aborts with an
uncaught error and the git stage is never reached, contrary to "never
aborts the pipeline".  Second run: the fixed file's basename is not in
`file_index` — the callback is invoked zero times, contrary to "exactly
once per fixed file". -/
theorem process_logs_callback_claim_false :
    (process_logs envCbRaise ["log"] true).1 = .error .callbackError
    ∧ Ev.gitCall ∉ (process_logs envCbRaise ["log"] true).2
    ∧ (process_logs envCbNoIdx ["log"] true).2.filter isCbCall = [] :=
  ⟨rfl, by decide, rfl⟩

/-- C5, amended.  When a callback and a provider index are supplied and the
run reaches code generation: a never-raising callback is invoked exactly
once per fixed file *whose basename is in `file_index`*, with
`(filename, original, fixed)`, and the run proceeds to the git stage; a
raising callback's exception propagates out of `process_logs` and the git
stage is never invoked. -/
theorem process_logs_callback_behavior (α : Type) (env : PipeEnv)
    (logs : List α) (a : LogAnalysis) (ec : ErrorContext) (sol : Solution)
    (fixed : List (String × String)) (idx : List (String × String))
    (hlogs : logs ≠ []) (ha : env.analyzeRes = .ok a)
    (hl : env.locateRes = .ok ec) (hp : env.proposeRes = .ok sol)
    (hsne : sol.affected_files ≠ []) (hg : env.generateRes = .ok fixed)
    (hidx : env.providerIndex = some idx) :
    ((∀ x y z, env.callbackRaises x y z = false) →
        (process_logs env logs true).2.filter isCbCall = expectedCbs env idx fixed
        ∧ (fixed ≠ [] → Ev.gitCall ∈ (process_logs env logs true).2))
    ∧ (∀ e, (runCallbacks env idx fixed).1 = .error e →
        (process_logs env logs true).1 = .error e
        ∧ Ev.gitCall ∉ (process_logs env logs true).2) := by
  have hne : logs.isEmpty = false := by
    cases logs with
    | nil => exact absurd rfl hlogs
    | cons x t => rfl
  have haf : sol.affected_files.isEmpty = false := by
    cases hA : sol.affected_files with
    | nil => exact absurd hA hsne
    | cons x t => rfl
  constructor
  · intro hcb
    have hR := runCallbacks_no_raise env idx hcb fixed
    by_cases hfi : fixed.isEmpty
    · have heq : process_logs env logs true
          = (.ok ⟨"", "", [], false⟩,
              [Ev.analyzeCall, .locateCall, .proposeCall, .generateCall]
                ++ expectedCbs env idx fixed) := by
        simp [process_logs, hne, ha, hl, hp, haf, hg, hidx, hR, hfi]
      constructor
      · rw [heq]
        simp only [List.filter_append]
        have h1 : List.filter isCbCall
            [Ev.analyzeCall, .locateCall, .proposeCall, .generateCall] = [] := rfl
        rw [h1]
        have h2 : ∀ e ∈ expectedCbs env idx fixed, isCbCall e = true := by
          have := runCallbacks_all_cb env idx fixed
          rw [hR] at this
          exact this
        simp [List.filter_eq_self.mpr h2]
      · intro hne2
        exact absurd (List.isEmpty_iff.mp hfi) hne2
    · have heq : process_logs env logs true
          = ((create_fix_branch env.gitEnv a fixed env.providerIndex env.repoPath).1,
              ([Ev.analyzeCall, .locateCall, .proposeCall, .generateCall]
                ++ expectedCbs env idx fixed) ++ [Ev.gitCall]) := by
        simp only [Bool.not_eq_true] at hfi
        simp [process_logs, hne, ha, hl, hp, haf, hg, hidx, hR, hfi]
      constructor
      · rw [heq]
        simp only [List.filter_append]
        have h1 : List.filter isCbCall
            [Ev.analyzeCall, .locateCall, .proposeCall, .generateCall] = [] := rfl
        have h3 : List.filter isCbCall [Ev.gitCall] = [] := rfl
        rw [h1, h3]
        have h2 : ∀ e ∈ expectedCbs env idx fixed, isCbCall e = true := by
          have := runCallbacks_all_cb env idx fixed
          rw [hR] at this
          exact this
        simp [List.filter_eq_self.mpr h2]
      · intro _
        rw [heq]
        simp
  · intro e he
    rcases hR : runCallbacks env idx fixed with ⟨res, ctr⟩
    rw [hR] at he
    simp at he
    rw [he] at hR
    have heq : process_logs env logs true
        = (.error e,
            [Ev.analyzeCall, .locateCall, .proposeCall, .generateCall] ++ ctr) := by
      simp [process_logs, hne, ha, hl, hp, haf, hg, hidx, hR]
    constructor
    · rw [heq]
    · rw [heq]
      intro hmem
      simp at hmem
      have := runCallbacks_all_cb env idx fixed Ev.gitCall
      rw [hR] at this
      have h4 := this hmem
      cases h4

/-- C5 witness: the amended theorem applied to a concrete run with one
indexed fixed file and a non-raising callback. -/
theorem process_logs_callback_behavior_witness :
    (process_logs envCbOk ["log"] true).2.filter isCbCall
      = expectedCbs envCbOk [("A.java", "/repo/A.java")] [("A.java", "new")] :=
  ((process_logs_callback_behavior String envCbOk ["log"] analysisNPE ecSample
      solutionA [("A.java", "new")] [("A.java", "/repo/A.java")]
      (by decide) rfl rfl rfl (by decide) rfl rfl).1
    (fun x y z => rfl)).1

/-- C8.  Without a Retrieval Index the error-localization prompt is never
assembled: `locate_error` hits the unbound local `prompt` at the completion
call site and raises `UnboundLocalError` with no completion call performed;
with an index supplied the prompt is assembled and exactly one completion
call is made. -/
theorem locate_error_prompt_unset_without_index (env : LocateEnv)
    (analysis : LogAnalysis) :
    locate_error env analysis false = (.error .unboundLocalError, [])
    ∧ (locate_error env analysis true).2 = [.completionCall] := by
  constructor
  · rfl
  · cases hp : env.parsed with
    | error e => simp [locate_error, hp]
    | ok q =>
      obtain ⟨l, c, d, s⟩ := q
      simp [locate_error, hp]

/-! ### Retrieval-query lemmas (C6, C7) -/

theorem stackPhase_seen (fidx : List (String × String))
    (fs : String → Except String (List String)) :
    ∀ ms seen, (stackPhase fidx fs ms seen).2
      = seen ++ ((stackPhase fidx fs ms seen).1).map (fun e => e.path) := by
  intro ms
  induction ms with
  | nil => intro seen; simp [stackPhase]
  | cons m rest ih =>
    intro seen
    obtain ⟨g0, g1⟩ := m
    cases hf : dictFind fidx (pyBasename g0) with
    | none => simp [stackPhase, hf, ih]
    | some fp =>
      by_cases hs : fp ∈ seen
      · simp [stackPhase, hf, hs, ih]
      · simp [stackPhase, hf, hs, ih (seen ++ [fp])]

theorem stackPhase_nodup (fidx : List (String × String))
    (fs : String → Except String (List String)) :
    ∀ ms seen, seen.Nodup → (stackPhase fidx fs ms seen).2.Nodup := by
  intro ms
  induction ms with
  | nil => intro seen h; simpa [stackPhase] using h
  | cons m rest ih =>
    intro seen h
    obtain ⟨g0, g1⟩ := m
    cases hf : dictFind fidx (pyBasename g0) with
    | none => simpa [stackPhase, hf] using ih seen h
    | some fp =>
      by_cases hs : fp ∈ seen
      · simpa [stackPhase, hf, hs] using ih seen h
      · have h2 : (seen ++ [fp]).Nodup := by simp [List.nodup_append, h, hs]
        simpa [stackPhase, hf, hs] using ih (seen ++ [fp]) h2

theorem stackPhase_entries (fidx : List (String × String))
    (fs : String → Except String (List String)) :
    ∀ ms seen e, e ∈ (stackPhase fidx fs ms seen).1 →
      e.relevance = "stack_trace"
      ∧ ∃ ln, e.content = read_file_excerpt fs e.path ln := by
  intro ms
  induction ms with
  | nil => intro seen e he; simp [stackPhase] at he
  | cons m rest ih =>
    intro seen e he
    obtain ⟨g0, g1⟩ := m
    cases hf : dictFind fidx (pyBasename g0) with
    | none =>
      rw [stackPhase, hf] at he
      exact ih seen e he
    | some fp =>
      by_cases hs : fp ∈ seen
      · rw [stackPhase, hf] at he
        simp only [if_pos hs] at he
        exact ih seen e he
      · rw [stackPhase, hf] at he
        simp only [if_neg hs] at he
        rcases List.mem_cons.mp he with h1 | h2
        · subst h1
          exact ⟨rfl, ⟨g1.toNat?, rfl⟩⟩
        · exact ih (seen ++ [fp]) e h2

theorem classPaths_seen (fs : String → Except String (List String)) :
    ∀ ps seen, (classPaths fs ps seen).2
      = seen ++ ((classPaths fs ps seen).1).map (fun e => e.path) := by
  intro ps
  induction ps with
  | nil => intro seen; simp [classPaths]
  | cons fp rest ih =>
    intro seen
    by_cases hs : fp ∈ seen
    · simp [classPaths, hs, ih]
    · simp [classPaths, hs, ih (seen ++ [fp])]

theorem classPaths_nodup (fs : String → Except String (List String)) :
    ∀ ps seen, seen.Nodup → (classPaths fs ps seen).2.Nodup := by
  intro ps
  induction ps with
  | nil => intro seen h; simpa [classPaths] using h
  | cons fp rest ih =>
    intro seen h
    by_cases hs : fp ∈ seen
    · simpa [classPaths, hs] using ih seen h
    · have h2 : (seen ++ [fp]).Nodup := by simp [List.nodup_append, h, hs]
      simpa [classPaths, hs] using ih (seen ++ [fp]) h2

theorem classPaths_entries (fs : String → Except String (List String)) :
    ∀ ps seen e, e ∈ (classPaths fs ps seen).1 →
      e.relevance = "class_match"
      ∧ e.content = read_file_excerpt fs e.path none := by
  intro ps
  induction ps with
  | nil => intro seen e he; simp [classPaths] at he
  | cons fp rest ih =>
    intro seen e he
    by_cases hs : fp ∈ seen
    · rw [classPaths] at he
      simp only [if_pos hs] at he
      exact ih seen e he
    · rw [classPaths] at he
      simp only [if_neg hs] at he
      rcases List.mem_cons.mp he with h1 | h2
      · subst h1
        exact ⟨rfl, rfl⟩
      · exact ih (seen ++ [fp]) e h2

theorem classPhase_seen (cidx : List (String × List String))
    (fs : String → Except String (List String)) :
    ∀ ws seen, (classPhase cidx fs ws seen).2
      = seen ++ ((classPhase cidx fs ws seen).1).map (fun e => e.path) := by
  intro ws
  induction ws with
  | nil => intro seen; simp [classPhase]
  | cons w rest ih =>
    intro seen
    cases hf : dictFind cidx w with
    | none => simp [classPhase, hf, ih]
    | some paths =>
      simp only [classPhase, hf]
      rw [ih ((classPaths fs (paths.take 2) seen).2),
        classPaths_seen fs (paths.take 2) seen, List.map_append,
        List.append_assoc]

theorem classPhase_nodup (cidx : List (String × List String))
    (fs : String → Except String (List String)) :
    ∀ ws seen, seen.Nodup → (classPhase cidx fs ws seen).2.Nodup := by
  intro ws
  induction ws with
  | nil => intro seen h; simpa [classPhase] using h
  | cons w rest ih =>
    intro seen h
    cases hf : dictFind cidx w with
    | none => simpa [classPhase, hf] using ih seen h
    | some paths =>
      simpa [classPhase, hf] using
        ih ((classPaths fs (paths.take 2) seen).2)
          (classPaths_nodup fs (paths.take 2) seen h)

theorem classPhase_entries (cidx : List (String × List String))
    (fs : String → Except String (List String)) :
    ∀ ws seen e, e ∈ (classPhase cidx fs ws seen).1 →
      e.relevance = "class_match"
      ∧ e.content = read_file_excerpt fs e.path none := by
  intro ws
  induction ws with
  | nil => intro seen e he; simp [classPhase] at he
  | cons w rest ih =>
    intro seen e he
    cases hf : dictFind cidx w with
    | none =>
      rw [classPhase, hf] at he
      exact ih seen e he
    | some paths =>
      rw [classPhase, hf] at he
      simp only [List.mem_append] at he
      rcases he with h1 | h2
      · exact classPaths_entries fs (paths.take 2) seen e h1
      · exact ih ((classPaths fs (paths.take 2) seen).2) e h2

/-- The two phases together never select the same path twice. -/
theorem phases_paths_nodup (fidx : List (String × String))
    (cidx : List (String × List String))
    (fs : String → Except String (List String))
    (sm : List (String × String)) (cw : List String) :
    (((stackPhase fidx fs sm []).1
      ++ (classPhase cidx fs cw ((stackPhase fidx fs sm []).2)).1).map
        (fun e => e.path)).Nodup := by
  have h1 : ((stackPhase fidx fs sm []).2).Nodup :=
    stackPhase_nodup fidx fs sm [] List.nodup_nil
  have h2 := classPhase_nodup cidx fs cw ((stackPhase fidx fs sm []).2) h1
  rw [classPhase_seen] at h2
  nth_rewrite 1 [stackPhase_seen] at h2
  rw [List.nil_append] at h2
  rw [List.map_append]
  exact h2

/-- C7.  `find_relevant_files` returns at most `max_files` entries, no two
entries share a path, and the result is a truncation of stack-trace-tagged
entries followed by class-match-tagged entries, each group in discovery
order.  The statement quantifies over every possible regex-matcher output,
so it covers every stack trace and error message. -/
theorem find_relevant_files_bounded (fidx : List (String × String))
    (cidx : List (String × List String))
    (fs : String → Except String (List String))
    (sm : List (String × String)) (cw : List String) (mf : Nat) :
    (find_relevant_files fidx cidx fs sm cw mf).length ≤ mf
    ∧ List.Pairwise (fun a b => a.path ≠ b.path)
        (find_relevant_files fidx cidx fs sm cw mf)
    ∧ ∃ s c : List Entry,
        find_relevant_files fidx cidx fs sm cw mf = (s ++ c).take mf
        ∧ (∀ e ∈ s, e.relevance = "stack_trace")
        ∧ (∀ e ∈ c, e.relevance = "class_match") := by
  refine ⟨?_, ?_, ?_⟩
  · have h : find_relevant_files fidx cidx fs sm cw mf
        = ((stackPhase fidx fs sm []).1
          ++ (classPhase cidx fs cw ((stackPhase fidx fs sm []).2)).1).take mf :=
      rfl
    rw [h, List.length_take]
    omega
  · have h2 : List.Pairwise (fun a b : Entry => a.path ≠ b.path)
        ((stackPhase fidx fs sm []).1
          ++ (classPhase cidx fs cw ((stackPhase fidx fs sm []).2)).1) := by
      have hn : List.Pairwise (fun a b : String => a ≠ b)
          (((stackPhase fidx fs sm []).1
            ++ (classPhase cidx fs cw ((stackPhase fidx fs sm []).2)).1).map
              (fun e => e.path)) :=
        phases_paths_nodup fidx cidx fs sm cw
      exact (List.pairwise_map).mp hn
    exact h2.sublist (List.take_sublist _ _)
  · refine ⟨(stackPhase fidx fs sm []).1,
      (classPhase cidx fs cw ((stackPhase fidx fs sm []).2)).1, rfl, ?_, ?_⟩
    · intro e he
      exact (stackPhase_entries fidx fs sm [] e he).1
    · intro e he
      exact (classPhase_entries cidx fs cw _ e he).1

/-- A failing read surfaces as the inline error excerpt. -/
theorem read_file_excerpt_error (fs : String → Except String (List String))
    (p : String) (ln : Option Nat) (err : String) (h : fs p = .error err) :
    read_file_excerpt fs p ln = "[Error reading file: " ++ err ++ "]" := by
  simp [read_file_excerpt, readExcerptTry, h, Bind.bind, Except.bind]

/-- C6.  `find_relevant_files` is a total function (its type makes the
"never raises" reading explicit: every exception source in its body is
locally handled), and every returned entry whose file cannot be read
carries the read error inline in its content instead of failing the
query. -/
theorem find_relevant_files_read_error (fidx : List (String × String))
    (cidx : List (String × List String))
    (fs : String → Except String (List String))
    (sm : List (String × String)) (cw : List String) (mf : Nat) (e : Entry)
    (he : e ∈ find_relevant_files fidx cidx fs sm cw mf) (err : String)
    (hr : fs e.path = .error err) :
    e.content = "[Error reading file: " ++ err ++ "]" := by
  have he2 := List.take_subset mf _ he
  rw [List.mem_append] at he2
  rcases he2 with h1 | h2
  · obtain ⟨-, ln, hc⟩ := stackPhase_entries fidx fs sm [] e h1
    rw [hc, read_file_excerpt_error fs e.path ln err hr]
  · obtain ⟨-, hc⟩ := classPhase_entries cidx fs cw _ e h2
    rw [hc, read_file_excerpt_error fs e.path none err hr]

/-- C6 witness: a concrete query against a file system whose every read
raises yields the entry with the inline error excerpt. -/
theorem find_relevant_files_read_error_witness :
    entryBoom ∈ find_relevant_files fidxA [] fsBoom smA [] 10
    ∧ entryBoom.content = "[Error reading file: " ++ "boom" ++ "]" :=
  ⟨by decide,
   find_relevant_files_read_error fidxA [] fsBoom smA [] 10 entryBoom
     (by decide) "boom" rfl⟩

/-! ### Regex-scan lemmas (C9)

`re.findall(r'class\s+(\w+)', content)` captures `Foo` whenever `content`
contains a proper `class Foo` declaration: the character before `class` (if
any) is not a word character, the character after `Foo` (if any) is not a
word character, and the declaration is not preceded by `class` plus
whitespace (the only shape in which the left-to-right non-overlapping scan
consumes the occurrence into an earlier match). -/

theorem getLastq_mem {α : Type} : ∀ (l : List α) (c : α),
    l.getLast? = some c → c ∈ l := by
  intro l
  induction l with
  | nil => intro c h; cases h
  | cons a t ih =>
    intro c h
    cases t with
    | nil =>
      simp [List.getLast?] at h
      simp [h]
    | cons b u =>
      rw [List.getLast?_cons_cons] at h
      exact List.mem_cons_of_mem a (ih c h)

theorem getLastq_ne_nil {α : Type} (l : List α) (c : α)
    (h : l.getLast? = some c) : l ≠ [] := by
  intro he
  rw [he] at h
  cases h

theorem leadsWith_iff : ∀ (p s : List Char),
    leadsWith p s = true ↔ ∃ t, s = p ++ t := by
  intro p
  induction p with
  | nil => intro s; simp [leadsWith]
  | cons a p ih =>
    intro s
    cases s with
    | nil =>
      simp [leadsWith]
    | cons c cs =>
      rw [leadsWith]
      constructor
      · intro h
        rw [Bool.and_eq_true] at h
        obtain ⟨h1, h2⟩ := h
        obtain ⟨t, ht⟩ := (ih cs).mp h2
        have ha : a = c := by simpa using h1
        exact ⟨t, by rw [ha, ht]; rfl⟩
      · rintro ⟨t, ht⟩
        have h1 : c = a := by injection ht
        have h2 : cs = p ++ t := by injection ht
        rw [Bool.and_eq_true]
        exact ⟨by simp [h1], (ih cs).mpr ⟨t, h2⟩⟩

theorem takeWhile_all_append (p : Char → Bool) :
    ∀ (l1 l2 : List Char), (∀ c ∈ l1, p c = true) →
      (l1 ++ l2).takeWhile p = l1 ++ l2.takeWhile p := by
  intro l1
  induction l1 with
  | nil => intro l2 h; rfl
  | cons a t ih =>
    intro l2 h
    have ha : p a = true := h a (by simp)
    rw [List.cons_append, List.takeWhile_cons, ha]
    simp only [if_true]
    rw [ih l2 (fun c hc => h c (by simp [hc]))]
    rfl

theorem dropWhile_all_append (p : Char → Bool) :
    ∀ (l1 l2 : List Char), (∀ c ∈ l1, p c = true) →
      (l1 ++ l2).dropWhile p = l2.dropWhile p := by
  intro l1
  induction l1 with
  | nil => intro l2 h; rfl
  | cons a t ih =>
    intro l2 h
    have ha : p a = true := h a (by simp)
    rw [List.cons_append, List.dropWhile_cons, ha]
    simp only [if_true]
    exact ih l2 (fun c hc => h c (by simp [hc]))

theorem dropWhile_head_false (p : Char → Bool) :
    ∀ (l : List Char) (c : Char) (t : List Char),
      l.dropWhile p = c :: t → p c = false := by
  intro l
  induction l with
  | nil => intro c t h; cases h
  | cons a u ih =>
    intro c t h
    rw [List.dropWhile_cons] at h
    by_cases ha : p a = true
    · rw [if_pos ha] at h
      exact ih c t h
    · rw [if_neg ha] at h
      obtain ⟨rfl, -⟩ : a = c ∧ u = t := by
        constructor <;> injection h
      simpa using ha

theorem tryMatchK_shape (kw s cap rem : List Char)
    (h : tryMatchK [kw] s = some (cap, rem)) :
    ∃ w, s = kw ++ (w ++ (cap ++ rem))
      ∧ w ≠ [] ∧ (∀ c ∈ w, isPyWs c = true)
      ∧ cap ≠ [] ∧ (∀ c ∈ cap, wordChar c = true)
      ∧ (∀ c t, rem = c :: t → wordChar c = false) := by
  cases hm : matchKws [kw] s with
  | none => rw [tryMatchK, hm] at h; cases h
  | some t =>
    rw [tryMatchK, hm] at h
    by_cases hc : t.takeWhile wordChar = []
    · simp [hc] at h
    · simp only [hc, if_neg, if_false] at h
      have hcap : t.takeWhile wordChar = cap := by
        have := congrArg Prod.fst (Option.some.inj h)
        simpa using this
      have hrem : t.dropWhile wordChar = rem := by
        have := congrArg Prod.snd (Option.some.inj h)
        simpa using this
      by_cases hl : leadsWith kw s = true
      · obtain ⟨t0, rfl⟩ := (leadsWith_iff kw s).mp hl
        rw [matchKws, if_pos hl, List.drop_left] at hm
        by_cases hw : t0.takeWhile isPyWs = []
        · rw [if_pos hw] at hm; cases hm
        · rw [if_neg hw] at hm
          have ht : t = t0.dropWhile isPyWs := by
            rw [matchKws] at hm
            exact (Option.some.inj hm).symm
          refine ⟨t0.takeWhile isPyWs, ?_, hw, ?_, ?_, ?_, ?_⟩
          · have e1 : t0.takeWhile isPyWs ++ t0.dropWhile isPyWs = t0 :=
              List.takeWhile_append_dropWhile isPyWs t0
            have e2 : t.takeWhile wordChar ++ t.dropWhile wordChar = t :=
              List.takeWhile_append_dropWhile wordChar t
            rw [hcap, hrem] at e2
            have e3 : t0.takeWhile isPyWs ++ (cap ++ rem) = t0 := by
              rw [e2, ht]; exact e1
            rw [e3]
          · intro c hcmem
            exact List.mem_takeWhile_imp hcmem
          · rw [← hcap]; exact hc
          · intro c hcmem
            rw [← hcap] at hcmem
            exact List.mem_takeWhile_imp hcmem
          · intro c u hcu
            rw [← hrem] at hcu
            exact dropWhile_head_false wordChar t c u hcu
      · rw [matchKws, if_neg hl] at hm; cases hm

theorem endsWithClassWs_of_decomp (q w : List Char) (hw : w ≠ [])
    (hws : ∀ c ∈ w, isPyWs c = true) :
    endsWithClassWs (q ++ ("class".data ++ w)) = true := by
  have hrev : (q ++ ("class".data ++ w)).reverse
      = w.reverse ++ ("class".data.reverse ++ q.reverse) := by
    simp [List.reverse_append, List.append_assoc]
  have hcr : "class".data.reverse ++ q.reverse
      = 's' :: ('s' :: 'a' :: 'l' :: 'c' :: [] ++ q.reverse) := rfl
  have hsw : isPyWs 's' = false := by decide
  have h1 : (w.reverse ++ ("class".data.reverse ++ q.reverse)).takeWhile isPyWs
      = w.reverse ++ ("class".data.reverse ++ q.reverse).takeWhile isPyWs :=
    takeWhile_all_append isPyWs w.reverse _
      (fun c hc => hws c (List.mem_reverse.mp hc))
  have h2 : ("class".data.reverse ++ q.reverse).takeWhile isPyWs = [] := by
    rw [hcr, List.takeWhile_cons, hsw]
    simp
  have h3 : (w.reverse ++ ("class".data.reverse ++ q.reverse)).dropWhile isPyWs
      = "class".data.reverse ++ q.reverse := by
    rw [dropWhile_all_append isPyWs w.reverse _
      (fun c hc => hws c (List.mem_reverse.mp hc))]
    rw [hcr, List.dropWhile_cons, hsw]
    simp
  rw [endsWithClassWs, hrev, h1, h2, h3, Bool.and_eq_true]
  constructor
  · simp [hw]
  · exact (leadsWith_iff _ _).mpr ⟨q.reverse, rfl⟩

theorem decomp_of_endsWithClassWs (pre : List Char)
    (h : endsWithClassWs pre = true) :
    ∃ q w, pre = q ++ ("class".data ++ w) ∧ w ≠ []
      ∧ ∀ c ∈ w, isPyWs c = true := by
  rw [endsWithClassWs, Bool.and_eq_true] at h
  obtain ⟨h1, h2⟩ := h
  obtain ⟨t, ht⟩ := (leadsWith_iff _ _).mp h2
  set W := pre.reverse.takeWhile isPyWs with hWdef
  have hsplit : pre.reverse = W ++ ("class".data.reverse ++ t) := by
    rw [← ht, hWdef, List.takeWhile_append_dropWhile]
  refine ⟨t.reverse, W.reverse, ?_, ?_, ?_⟩
  · have h4 := congrArg List.reverse hsplit
    rw [List.reverse_reverse] at h4
    rw [h4]
    simp [List.reverse_append, List.append_assoc]
  · intro he
    have hWnil : W = [] := by
      have := congrArg List.reverse he
      simpa using this
    rw [hWnil] at h1
    simp at h1
  · intro c hc
    exact List.mem_takeWhile_imp (List.mem_reverse.mp hc)

theorem endsWith_suffix_false (cut pre2 : List Char)
    (h : endsWithClassWs (cut ++ pre2) = false) :
    endsWithClassWs pre2 = false := by
  cases hx : endsWithClassWs pre2 with
  | false => rfl
  | true =>
    obtain ⟨q, w, hq, hw, hws⟩ := decomp_of_endsWithClassWs pre2 hx
    have h2 := endsWithClassWs_of_decomp (cut ++ q) w hw hws
    rw [List.append_assoc, ← hq] at h2
    rw [h2] at h
    cases h

theorem getLastq_exists {α : Type} : ∀ (l : List α), l ≠ [] →
    ∃ c, l.getLast? = some c ∧ c ∈ l := by
  intro l
  induction l with
  | nil => intro h; exact absurd rfl h
  | cons a t ih =>
    intro _
    cases t with
    | nil => exact ⟨a, rfl, by simp⟩
    | cons b u =>
      obtain ⟨c, hc, hm⟩ := ih (by simp)
      exact ⟨c, by rw [List.getLast?_cons_cons]; exact hc,
        List.mem_cons_of_mem a hm⟩

theorem tryMatchK_base (post : List Char)
    (hpost : ∀ c t, post = c :: t → wordChar c = false) :
    tryMatchK ["class".data] ("class Foo".data ++ post)
      = some ("Foo".data, post) := by
  have hE : "class Foo".data ++ post
      = "class".data ++ (' ' :: 'F' :: 'o' :: 'o' :: post) := rfl
  have hl : leadsWith "class".data
      ("class".data ++ (' ' :: 'F' :: 'o' :: 'o' :: post)) = true :=
    (leadsWith_iff _ _).mpr ⟨_, rfl⟩
  have c1 : isPyWs ' ' = true := by decide
  have c2 : isPyWs 'F' = false := by decide
  have hTW : (' ' :: 'F' :: 'o' :: 'o' :: post).takeWhile isPyWs = [' '] := by
    simp [List.takeWhile_cons, c1, c2]
  have hDW : (' ' :: 'F' :: 'o' :: 'o' :: post).dropWhile isPyWs
      = 'F' :: 'o' :: 'o' :: post := by
    simp [List.dropWhile_cons, c1, c2]
  have hm : matchKws ["class".data] ("class Foo".data ++ post)
      = some ('F' :: 'o' :: 'o' :: post) := by
    rw [hE, matchKws, if_pos hl, List.drop_left]
    simp [hTW, hDW, matchKws]
  rw [tryMatchK, hm]
  have w1 : wordChar 'F' = true := by decide
  have w2 : wordChar 'o' = true := by decide
  cases post with
  | nil => rfl
  | cons c t =>
    have hw : wordChar c = false := hpost c t rfl
    have hTW2 : ('F' :: 'o' :: 'o' :: c :: t).takeWhile wordChar
        = 'F' :: 'o' :: 'o' :: [] := by
      simp [List.takeWhile_cons, w1, w2, hw]
    have hDW2 : ('F' :: 'o' :: 'o' :: c :: t).dropWhile wordChar = c :: t := by
      simp [List.dropWhile_cons, w1, w2, hw]
    simp only [hTW2, hDW2]
    rfl

theorem tryMatchK_step (pre post cap rem : List Char) (hpre : pre ≠ [])
    (hlast : ∀ c, pre.getLast? = some c → wordChar c = false)
    (hsw : endsWithClassWs pre = false)
    (h : tryMatchK ["class".data] (pre ++ ("class Foo".data ++ post))
        = some (cap, rem)) :
    ∃ cut pre2, pre = cut ++ pre2
      ∧ rem = pre2 ++ ("class Foo".data ++ post)
      ∧ pre2.length < pre.length := by
  obtain ⟨w, hE, hwne, hwws, hcapne, hcapw, -⟩ :=
    tryMatchK_shape "class".data _ cap rem h
  have hDcons : "class Foo".data ++ post
      = 'c' :: ("lass Foo".data ++ post) := rfl
  rcases List.append_eq_append_iff.mp hE with ⟨u, hu1, hu2⟩ | ⟨v, hv1, hv2⟩
  · -- the matched keyword starts inside `pre` and `pre` is a prefix of "class"
    cases u with
    | nil =>
      have hpc : pre = "class".data := by simpa using hu1.symm
      have hg : pre.getLast? = some 's' := by rw [hpc]; rfl
      have := hlast 's' hg
      simp [wordChar] at this
    | cons u0 ut =>
      have hu0 : 'c' = u0 := by
        rw [hDcons] at hu2
        injection hu2
      cases pre with
      | nil => exact absurd rfl hpre
      | cons p0 pt =>
        have htail : 'l' :: 'a' :: 's' :: 's' :: [] = pt ++ (u0 :: ut) := by
          have : 'c' :: 'l' :: 'a' :: 's' :: 's' :: []
              = p0 :: (pt ++ (u0 :: ut)) := hu1
          injection this
        have hmem : u0 ∈ pt ++ (u0 :: ut) := by simp
        rw [← htail, ← hu0] at hmem
        exact absurd hmem (by decide)
  · rcases List.append_eq_append_iff.mp hv2 with ⟨x, hx1, hx2⟩ | ⟨y, hy1, hy2⟩
    · rcases List.append_eq_append_iff.mp hx2 with ⟨y, hy1, hy2⟩ | ⟨z, hz1, hz2⟩
      · -- consumed region ends inside `pre`: recurse on the leftover suffix
        refine ⟨"class".data ++ (w ++ cap), y, ?_, hy2, ?_⟩
        · rw [hv1, hx1, hy1]
          simp [List.append_assoc]
        · have hlen := congrArg List.length hv1
          rw [hx1, hy1] at hlen
          simp only [List.length_append] at hlen
          have hw1 : 0 < w.length := List.length_pos.mpr hwne
          have hc1 : 0 < cap.length := List.length_pos.mpr hcapne
          have h5 : "class".data.length = 5 := rfl
          rw [h5] at hlen
          omega
      · -- the captured word would extend into the declaration
        cases z with
        | nil =>
          have hcx : cap = x := by simpa using hz1
          obtain ⟨c, hcl, hcm⟩ := getLastq_exists cap hcapne
          have hplast : pre.getLast? = some c := by
            rw [hv1, hx1, ← hcx, ← List.append_assoc,
              List.getLast?_append_of_ne_nil _ hcapne]
            exact hcl
          have := hlast c hplast
          rw [hcapw c hcm] at this
          cases this
        | cons z0 zt =>
          have hz0 : 'c' = z0 := by
            rw [hDcons] at hz2
            injection hz2
          cases x with
          | nil =>
            have hvw : v = w := by simpa using hx1
            have htrue := endsWithClassWs_of_decomp [] w hwne hwws
            rw [List.nil_append] at htrue
            rw [hv1, hvw, htrue] at hsw
            cases hsw
          | cons x0 xt =>
            obtain ⟨c, hcl, hcm⟩ := getLastq_exists (x0 :: xt) (by simp)
            have hplast : pre.getLast? = some c := by
              rw [hv1, hx1, ← List.append_assoc,
                List.getLast?_append_of_ne_nil _ (List.cons_ne_nil x0 xt)]
              exact hcl
            have hcw : wordChar c = true := by
              apply hcapw
              rw [hz1]
              exact List.mem_append_left _ hcm
            have := hlast c hplast
            rw [hcw] at this
            cases this
    · -- the whitespace run would extend into the declaration
      cases y with
      | nil =>
        have hvw : v = w := by simpa using hy1.symm
        have htrue := endsWithClassWs_of_decomp [] w hwne hwws
        rw [List.nil_append] at htrue
        rw [hv1, hvw, htrue] at hsw
        cases hsw
      | cons y0 yt =>
        have hy0 : 'c' = y0 := by
          rw [hDcons] at hy2
          injection hy2
        have hmem : y0 ∈ w := by
          rw [hy1]
          exact List.mem_append_right v (by simp)
        have := hwws y0 hmem
        rw [← hy0] at this
        simp [isPyWs] at this

theorem foo_mem_scan : ∀ n pre post,
    (∀ c, pre.getLast? = some c → wordChar c = false) →
    endsWithClassWs pre = false →
    (∀ c t, post = c :: t → wordChar c = false) →
    (pre ++ ("class Foo".data ++ post)).length ≤ n →
    "Foo".data ∈ findallKF ["class".data] n (pre ++ ("class Foo".data ++ post)) := by
  intro n
  induction n with
  | zero =>
    intro pre post _ _ _ hn
    have h9 : ("class Foo".data).length = 9 := rfl
    rw [List.length_append, List.length_append, h9] at hn
    omega
  | succ n ih =>
    intro pre post hlast hsw hpost hn
    cases pre with
    | nil =>
      have hunf : findallKF ["class".data] (n + 1) ("class Foo".data ++ post)
          = (match tryMatchK ["class".data] ("class Foo".data ++ post) with
             | some (cap, rem) => cap :: findallKF ["class".data] n rem
             | none => findallKF ["class".data] n ("lass Foo".data ++ post)) := rfl
      rw [List.nil_append, hunf, tryMatchK_base post hpost]
      exact List.mem_cons_self _ _
    | cons p0 pt =>
      have hcons : (p0 :: pt) ++ ("class Foo".data ++ post)
          = p0 :: (pt ++ ("class Foo".data ++ post)) := rfl
      have hunf : findallKF ["class".data] (n + 1)
            (p0 :: (pt ++ ("class Foo".data ++ post)))
          = (match tryMatchK ["class".data]
                (p0 :: (pt ++ ("class Foo".data ++ post))) with
             | some (cap, rem) => cap :: findallKF ["class".data] n rem
             | none =>
               findallKF ["class".data] n (pt ++ ("class Foo".data ++ post))) :=
        rfl
      cases htm : tryMatchK ["class".data]
          ((p0 :: pt) ++ ("class Foo".data ++ post)) with
      | none =>
        rw [hcons] at htm
        rw [hcons, hunf, htm]
        refine ih pt post ?_ ?_ hpost ?_
        · intro c hc
          apply hlast
          have hpt : pt ≠ [] := getLastq_ne_nil pt c hc
          rw [show (p0 :: pt) = [p0] ++ pt from rfl,
            List.getLast?_append_of_ne_nil _ hpt]
          exact hc
        · exact endsWith_suffix_false [p0] pt hsw
        · simp only [List.length_cons, List.length_append] at hn ⊢
          omega
      | some pr =>
        obtain ⟨cap, rem⟩ := pr
        obtain ⟨cut, pre2, hcut, hrem, hlt⟩ :=
          tryMatchK_step (p0 :: pt) post cap rem (List.cons_ne_nil p0 pt)
            hlast hsw htm
        rw [hcons] at htm
        rw [hcons, hunf, htm]
        apply List.mem_cons_of_mem
        rw [hrem]
        refine ih pre2 post ?_ ?_ hpost ?_
        · intro c hc
          apply hlast
          have hp2 : pre2 ≠ [] := getLastq_ne_nil pre2 c hc
          rw [hcut, List.getLast?_append_of_ne_nil _ hp2]
          exact hc
        · exact endsWith_suffix_false cut pre2 (by rw [← hcut]; exact hsw)
        · simp only [List.length_cons, List.length_append] at hn hlt ⊢
          omega

/-- `re.findall(r'class\s+(\w+)', content)` captures `Foo` for every proper
`class Foo` declaration occurrence. -/
theorem foo_mem_findallK (pre post : List Char)
    (hlast : ∀ c, pre.getLast? = some c → wordChar c = false)
    (hsw : endsWithClassWs pre = false)
    (hpost : ∀ c t, post = c :: t → wordChar c = false) :
    "Foo".data ∈ findallK ["class".data]
      (pre ++ ("class Foo".data ++ post)) :=
  foo_mem_scan _ pre post hlast hsw hpost (le_refl _)

theorem dictFind_dictSet {α : Type} :
    ∀ (l : List (String × α)) (k : String) (v : α) (k' : String),
      dictFind (dictSet l k v) k' = if k = k' then some v else dictFind l k' := by
  intro l
  induction l with
  | nil =>
    intro k v k'
    simp [dictSet, dictFind]
  | cons q rest ih =>
    intro k v k'
    obtain ⟨a, b⟩ := q
    by_cases hak : a = k
    · subst hak
      simp only [dictSet, if_pos rfl, dictFind]
      by_cases hkk : a = k'
      · simp [hkk]
      · simp [hkk]
    · simp only [dictSet, if_neg hak, dictFind]
      by_cases hak2 : a = k'
      · subst hak2
        have hkk : k ≠ a := fun he => hak he.symm
        simp [hkk, ih]
      · simp [hak2, ih]

theorem classLookup_appendClass (ci : List (String × List String))
    (k : String) (p : String) (k' : String) :
    classLookup (appendClass ci k p) k'
      = if k = k' then classLookup ci k ++ [p] else classLookup ci k' := by
  rw [appendClass, classLookup, dictFind_dictSet]
  by_cases hk : k = k'
  · simp [hk]
  · simp [hk, classLookup]

theorem foldAppend_mono (path : String) (k : String) (p : String) :
    ∀ (ms : List (List Char)) (ci : List (String × List String)),
      p ∈ classLookup ci k →
      p ∈ classLookup
        (ms.foldl (fun ci m => appendClass ci (⟨m⟩ : String) path) ci) k := by
  intro ms
  induction ms with
  | nil => intro ci h; exact h
  | cons m rest ih =>
    intro ci h
    apply ih
    rw [classLookup_appendClass]
    by_cases hk : (⟨m⟩ : String) = k
    · rw [if_pos hk]
      exact List.mem_append_left _ (hk ▸ h)
    · rw [if_neg hk]
      exact h

theorem foldAppend_adds (path : String) :
    ∀ (ms : List (List Char)) (ci : List (String × List String))
      (m : List Char), m ∈ ms →
      path ∈ classLookup
        (ms.foldl (fun ci m => appendClass ci (⟨m⟩ : String) path) ci)
        (⟨m⟩ : String) := by
  intro ms
  induction ms with
  | nil => intro ci m h; simp at h
  | cons m0 rest ih =>
    intro ci m h
    rcases List.mem_cons.mp h with h1 | h2
    · subst h1
      rw [List.foldl_cons]
      apply foldAppend_mono
      rw [classLookup_appendClass, if_pos rfl]
      exact List.mem_append_right _ (by simp)
    · exact ih _ m h2

theorem indexStep_fst (acc : List (String × String) × List (String × List String))
    (g : TreeFile) :
    (indexStep acc g).1
      = if indexedFile g then dictSet acc.1 g.name g.path else acc.1 := by
  by_cases hi : indexedFile g <;> cases hc : g.content <;> simp [indexStep, hi, hc]

theorem indexStep_class_mono
    (acc : List (String × String) × List (String × List String))
    (g : TreeFile) (k p : String) (h : p ∈ classLookup acc.2 k) :
    p ∈ classLookup (indexStep acc g).2 k := by
  by_cases hi : indexedFile g
  · cases hc : g.content with
    | none => simpa [indexStep, hi, hc] using h
    | some c =>
      simp only [indexStep, hi, if_true, hc]
      exact foldAppend_mono g.path k p (classMatchesOf c) acc.2 h
  · simpa [indexStep, hi] using h

theorem buildAux_fidx_stable (k : String) (v : String) :
    ∀ (t : List TreeFile)
      (acc : List (String × String) × List (String × List String)),
      dictFind acc.1 k = some v →
      (∀ G ∈ t, indexedFile G = true → G.name = k → G.path = v) →
      dictFind (buildAux acc t).1 k = some v := by
  intro t
  induction t with
  | nil => intro acc h _; exact h
  | cons g rest ih =>
    intro acc h hall
    rw [buildAux]
    apply ih
    · rw [indexStep_fst]
      by_cases hi : indexedFile g
      · rw [if_pos hi, dictFind_dictSet]
        by_cases hk : g.name = k
        · rw [if_pos hk]
          rw [hall g (by simp) hi hk]
        · rw [if_neg hk]
          exact h
      · rw [if_neg hi]
        exact h
    · intro G hG h1 h2
      exact hall G (by simp [hG]) h1 h2

theorem buildAux_fidx_found (F : TreeFile) :
    ∀ (t : List TreeFile)
      (acc : List (String × String) × List (String × List String)),
      F ∈ t → indexedFile F = true →
      (∀ G ∈ t, indexedFile G = true → G.name = F.name → G.path = F.path) →
      dictFind (buildAux acc t).1 F.name = some F.path := by
  intro t
  induction t with
  | nil => intro acc h; simp at h
  | cons g rest ih =>
    intro acc hmem hind hall
    rcases List.mem_cons.mp hmem with h1 | h2
    · subst h1
      rw [buildAux]
      apply buildAux_fidx_stable
      · rw [indexStep_fst, if_pos hind, dictFind_dictSet, if_pos rfl]
      · intro G hG hi hn
        exact hall G (by simp [hG]) hi hn
    · rw [buildAux]
      exact ih (indexStep acc g) h2 hind
        (fun G hG hi hn => hall G (by simp [hG]) hi hn)

theorem buildAux_class_mono (k p : String) :
    ∀ (t : List TreeFile)
      (acc : List (String × String) × List (String × List String)),
      p ∈ classLookup acc.2 k →
      p ∈ classLookup (buildAux acc t).2 k := by
  intro t
  induction t with
  | nil => intro acc h; exact h
  | cons g rest ih =>
    intro acc h
    rw [buildAux]
    exact ih _ (indexStep_class_mono acc g k p h)

theorem buildAux_class_found (F : TreeFile) (C : String) (m : List Char) :
    ∀ (t : List TreeFile)
      (acc : List (String × String) × List (String × List String)),
      F ∈ t → indexedFile F = true → F.content = some C →
      m ∈ classMatchesOf C →
      F.path ∈ classLookup (buildAux acc t).2 (⟨m⟩ : String) := by
  intro t
  induction t with
  | nil => intro acc h; simp at h
  | cons g rest ih =>
    intro acc hmem hind hC hm
    rcases List.mem_cons.mp hmem with h1 | h2
    · subst h1
      rw [buildAux]
      apply buildAux_class_mono
      simp only [indexStep, hind, if_true, hC]
      exact foldAppend_adds F.path (classMatchesOf C) acc.2 m hm
    · rw [buildAux]
      exact ih (indexStep acc g) h2 hind hC hm

/-- C9.  After one index build over a source tree containing a scanned file
named `Foo.java` whose text contains a proper `class Foo` declaration (the
characters adjacent to the occurrence are not word characters, the
occurrence is not preceded by `class` plus whitespace — the one shape the
non-overlapping regex scan would swallow — and no other scanned file shadows
the name), `file_index["Foo.java"]` yields that file's path and
`class_index["Foo"]` contains it. -/
theorem index_roundtrip (tree : List TreeFile) (F : TreeFile)
    (C : String) (pre post : List Char)
    (hmem : F ∈ tree) (hname : F.name = "Foo.java")
    (hind : indexedFile F = true)
    (huniq : ∀ G ∈ tree, indexedFile G = true → G.name = "Foo.java" →
      G.path = F.path)
    (hC : F.content = some C)
    (hdecomp : C.data = pre ++ ("class Foo".data ++ post))
    (hlast : ∀ c, pre.getLast? = some c → wordChar c = false)
    (hsw : endsWithClassWs pre = false)
    (hpost : ∀ c t, post = c :: t → wordChar c = false) :
    dictFind (build_index tree).1 "Foo.java" = some F.path
    ∧ F.path ∈ classLookup (build_index tree).2 "Foo" := by
  constructor
  · rw [build_index, ← hname]
    exact buildAux_fidx_found F tree ([], []) hmem hind
      (fun G hG hi hn => huniq G hG hi (hname ▸ hn))
  · have hFm : "Foo".data ∈ classMatchesOf C := by
      rw [classMatchesOf, hdecomp]
      exact List.mem_append_left _
        (List.mem_append_left _ (foo_mem_findallK pre post hlast hsw hpost))
    have h := buildAux_class_found F C "Foo".data tree ([], [])
      hmem hind hC hFm
    exact h

/-- C9 witness: the round-trip theorem applied to a concrete one-file tree
whose `Foo.java` contains `public class Foo`. -/
theorem index_roundtrip_witness :
    dictFind (build_index treeFoo).1 "Foo.java" = some "/t/Foo.java"
    ∧ "/t/Foo.java" ∈ classLookup (build_index treeFoo).2 "Foo" :=
  index_roundtrip treeFoo
    ⟨[], "Foo.java", ".java", "/t/Foo.java", some "public class Foo \x7b\x7d"⟩
    "public class Foo \x7b\x7d" "public ".data " \x7b\x7d".data
    (by simp [treeFoo]) rfl (by decide)
    (by intro G hG _ _; simp [treeFoo] at hG; simp [hG])
    rfl rfl
    (by
      intro c hc
      rw [show ("public ".data.getLast? = some ' ') from rfl] at hc
      cases hc
      decide)
    (by decide)
    (by
      intro c t h
      rw [show ((" \x7b\x7d" : String).data = ' ' :: '\x7b' :: '\x7d' :: [])
        from rfl] at h
      injection h with h1 h2
      rw [← h1]
      decide)

/-! ### Lemmas about Python `str.replace(pat, '')` (C4) -/

theorem replF_nil (pat : List Char) (hp : pat ≠ []) :
    ∀ n, replF pat n [] = [] := by
  intro n
  cases n with
  | zero => rfl
  | succ n =>
    cases pat with
    | nil => exact absurd rfl hp
    | cons p ps => rfl

theorem replF_succ (pat : List Char) (k : Nat) (s : List Char) :
    replF pat (k + 1) s
      = if leadsWith pat s then replF pat k (s.drop pat.length)
        else match s with
          | [] => []
          | c :: t => c :: replF pat k t := rfl

theorem replF_succ_cons (pat : List Char) (k : Nat) (c : Char) (t : List Char) :
    replF pat (k + 1) (c :: t)
      = if leadsWith pat (c :: t) then replF pat k ((c :: t).drop pat.length)
        else c :: replF pat k t := rfl

theorem replF_congr (pat : List Char) (hp : pat ≠ []) :
    ∀ L s, s.length ≤ L → ∀ n m, s.length ≤ n → s.length ≤ m →
      replF pat n s = replF pat m s := by
  intro L
  induction L with
  | zero =>
    intro s hs n m _ _
    have h0 : s = [] := List.eq_nil_of_length_eq_zero (Nat.le_zero.mp hs)
    subst h0
    rw [replF_nil pat hp, replF_nil pat hp]
  | succ L ih =>
    intro s hs n m hn hm
    cases s with
    | nil => rw [replF_nil pat hp, replF_nil pat hp]
    | cons c t =>
      cases n with
      | zero => simp at hn
      | succ n =>
        cases m with
        | zero => simp at hm
        | succ m =>
          rw [replF_succ_cons, replF_succ_cons]
          have hp1 : 0 < pat.length := List.length_pos.mpr hp
          have hd : ((c :: t).drop pat.length).length
              = (c :: t).length - pat.length := List.length_drop _ _
          by_cases hl : leadsWith pat (c :: t) = true
          · rw [if_pos hl, if_pos hl]
            refine ih _ ?_ n m ?_ ?_ <;>
              (rw [hd]; simp only [List.length_cons] at hs hn hm ⊢; omega)
          · rw [if_neg hl, if_neg hl]
            simp only [List.length_cons] at hs hn hm
            rw [ih t (by omega) n m (by omega) (by omega)]

theorem repl_nil (pat : List Char) : repl pat [] = [] := rfl

theorem repl_head (pat t : List Char) (hp : pat ≠ []) :
    repl pat (pat ++ t) = repl pat t := by
  have hp1 : 0 < pat.length := List.length_pos.mpr hp
  rw [repl]
  cases hL : (pat ++ t).length with
  | zero =>
    exfalso
    rw [List.length_append] at hL
    omega
  | succ k =>
    rw [replF_succ,
      if_pos ((leadsWith_iff _ _).mpr ⟨t, rfl⟩), List.drop_left]
    have hk : t.length ≤ k := by
      rw [List.length_append] at hL
      omega
    exact replF_congr pat hp t.length t (le_refl _) k t.length hk (le_refl _)

theorem repl_cons_no_match (pat : List Char) (c : Char) (t : List Char)
    (hl : leadsWith pat (c :: t) = false) :
    repl pat (c :: t) = c :: repl pat t := by
  rw [repl, repl]
  have h1 : (c :: t).length = t.length + 1 := rfl
  rw [h1, replF_succ_cons, hl]
  simp

theorem replF_no_occur (pat : List Char) (hp : pat ≠ []) :
    ∀ n s, s.length ≤ n → ¬ OccursIn pat s → replF pat n s = s := by
  intro n
  induction n with
  | zero =>
    intro s hs _
    have h0 : s = [] := List.eq_nil_of_length_eq_zero (Nat.le_zero.mp hs)
    rw [h0, replF_nil pat hp]
  | succ n ih =>
    intro s hs hno
    cases s with
    | nil => rw [replF_nil pat hp]
    | cons c t =>
      rw [replF_succ_cons]
      by_cases hl : leadsWith pat (c :: t) = true
      · obtain ⟨r, hr⟩ := (leadsWith_iff _ _).mp hl
        exact absurd ⟨[], r, by rw [hr]; rfl⟩ hno
      · rw [if_neg hl]
        simp only [List.length_cons] at hs
        rw [ih t (by omega) (fun ⟨u, v, huv⟩ => hno ⟨c :: u, v, by rw [huv]; rfl⟩)]

theorem repl_no_occur (pat s : List Char) (hp : pat ≠ [])
    (hno : ¬ OccursIn pat s) : repl pat s = s :=
  replF_no_occur pat hp s.length s (le_refl _) hno

theorem repl_append_nl (pat : List Char) (hp : pat ≠ [])
    (hnl : '\n' ∉ pat) (t : List Char) :
    ∀ L s, s.length ≤ L →
      repl pat (s ++ '\n' :: t) = repl pat s ++ repl pat ('\n' :: t) := by
  intro L
  induction L with
  | zero =>
    intro s hs
    have h0 : s = [] := List.eq_nil_of_length_eq_zero (Nat.le_zero.mp hs)
    rw [h0, List.nil_append, repl_nil, List.nil_append]
  | succ L ih =>
    intro s hs
    cases s with
    | nil => rw [List.nil_append, repl_nil, List.nil_append]
    | cons c u =>
      by_cases hl : leadsWith pat ((c :: u) ++ '\n' :: t) = true
      · obtain ⟨r, hr⟩ := (leadsWith_iff _ _).mp hl
        rcases List.append_eq_append_iff.mp hr with ⟨a, ha1, ha2⟩ | ⟨a, ha1, ha2⟩
        · cases a with
          | nil =>
            have hcu : c :: u = pat := by simpa using ha1.symm
            rw [hcu, repl_head pat _ hp]
            have h2 : repl pat pat = [] := by
              calc repl pat pat = repl pat (pat ++ []) := by rw [List.append_nil]
                _ = repl pat [] := repl_head pat [] hp
                _ = [] := repl_nil pat
            rw [h2, List.nil_append]
          | cons a0 a2 =>
            have ha0 : '\n' = a0 := by injection ha2
            have hmem : a0 ∈ pat := by
              rw [ha1]
              exact List.mem_append_right _ (by simp)
            rw [← ha0] at hmem
            exact absurd hmem hnl
        · rw [ha1, List.append_assoc, repl_head pat _ hp, repl_head pat _ hp]
          apply ih
          have := congrArg List.length ha1
          have hp1 : 0 < pat.length := List.length_pos.mpr hp
          simp only [List.length_cons, List.length_append] at this hs
          omega
      · have hl2 : leadsWith pat (c :: u) = false := by
          cases hcu : leadsWith pat (c :: u) with
          | false => rfl
          | true =>
            obtain ⟨r, hr⟩ := (leadsWith_iff _ _).mp hcu
            exact absurd ((leadsWith_iff _ _).mpr
              ⟨r ++ '\n' :: t, by rw [hr, List.append_assoc]⟩) hl
        have hlf : leadsWith pat (c :: (u ++ '\n' :: t)) = false := by
          cases hx : leadsWith pat (c :: (u ++ '\n' :: t)) with
          | false => rfl
          | true => exact absurd hx hl
        rw [show (c :: u) ++ '\n' :: t = c :: (u ++ '\n' :: t) from rfl,
          repl_cons_no_match pat c _ hlf,
          repl_cons_no_match pat c u hl2]
        simp only [List.length_cons] at hs
        rw [ih u (by omega)]
        rfl

theorem p1_nl_split : ∀ a c, "```json\n".data = a ++ '\n' :: c →
    a = "```json".data ∧ c = [] := by
  intro a c h
  rw [show "```json\n".data
    = '`' :: '`' :: '`' :: 'j' :: 's' :: 'o' :: 'n' :: '\n' :: [] from rfl] at h
  rcases a with _ | ⟨a0, a⟩
  · simp at h
  injection h with h0 h
  rcases a with _ | ⟨a1, a⟩
  · simp at h
  injection h with h1 h
  rcases a with _ | ⟨a2, a⟩
  · simp at h
  injection h with h2 h
  rcases a with _ | ⟨a3, a⟩
  · simp at h
  injection h with h3 h
  rcases a with _ | ⟨a4, a⟩
  · simp at h
  injection h with h4 h
  rcases a with _ | ⟨a5, a⟩
  · simp at h
  injection h with h5 h
  rcases a with _ | ⟨a6, a⟩
  · simp at h
  injection h with h6 h
  rcases a with _ | ⟨a7, a⟩
  · simp at h
    subst h0 h1 h2 h3 h4 h5 h6
    exact ⟨rfl, h⟩
  · injection h with h7 h
    cases a <;> simp at h

theorem p3_nl_split : ∀ a c, "```\n".data = a ++ '\n' :: c →
    a = "```".data ∧ c = [] := by
  intro a c h
  rw [show "```\n".data = '`' :: '`' :: '`' :: '\n' :: [] from rfl] at h
  rcases a with _ | ⟨a0, a⟩
  · simp at h
  injection h with h0 h
  rcases a with _ | ⟨a1, a⟩
  · simp at h
  injection h with h1 h
  rcases a with _ | ⟨a2, a⟩
  · simp at h
  injection h with h2 h
  rcases a with _ | ⟨a3, a⟩
  · simp at h
    subst h0 h1 h2
    exact ⟨rfl, h⟩
  · injection h with h3 h
    cases a <;> simp at h

theorem mid_split_absurd : ∀ (cs : List Char) (bad : Char) (v mid rest : List Char),
    (∀ c ∈ cs, c ≠ '"') → bad ≠ '"' → bad.toNat < 32 →
    cs ++ bad :: v = mid ++ '"' :: rest →
    (∀ c ∈ mid, c ≠ '"' ∧ 32 ≤ c.toNat) → False := by
  intro cs
  induction cs with
  | nil =>
    intro bad v mid rest _ hbq hbc h hmid
    cases mid with
    | nil =>
      injection h with h1 _
      exact hbq h1
    | cons m0 mid2 =>
      injection h with h1 _
      have h2 := (hmid m0 (by simp)).2
      rw [← h1] at h2
      omega
  | cons c0 cs ih =>
    intro bad v mid rest hcs hbq hbc h hmid
    cases mid with
    | nil =>
      injection h with h1 _
      exact hcs c0 (by simp) h1
    | cons m0 mid2 =>
      injection h with h1 h2
      exact ih bad v mid2 rest (fun c hc => hcs c (by simp [hc])) hbq hbc h2
        (fun c hc => hmid c (by simp [hc]))

theorem good_no_occ_p1 (J : List Char) (hg : Good J) :
    ¬ OccursIn "```json\n".data J := by
  rintro ⟨u, v, h⟩
  rw [show "```json\n".data
    = '`' :: '`' :: '`' :: 'j' :: 's' :: 'o' :: 'n' :: '\n' :: [] from rfl] at h
  have h2 : J = (u ++ ['`', '`'])
      ++ '`' :: ('j' :: 's' :: 'o' :: 'n' :: '\n' :: v) := by
    rw [h]
    simp
  obtain ⟨mid, rest, hsplit, hmid⟩ := hg _ _ h2
  exact mid_split_absurd ['j', 's', 'o', 'n'] '\n' v mid rest
    (by decide) (by decide) (by decide) hsplit hmid

theorem good_no_ends_p2 (J : List Char) (hg : Good J) :
    ∀ q, J ≠ q ++ "```json".data := by
  intro q h
  rw [show "```json".data = '`' :: '`' :: '`' :: 'j' :: 's' :: 'o' :: 'n' :: []
    from rfl] at h
  have h2 : J = (q ++ ['`', '`']) ++ '`' :: ('j' :: 's' :: 'o' :: 'n' :: []) := by
    rw [h]
    simp
  obtain ⟨mid, rest, hsplit, -⟩ := hg _ _ h2
  have hqm : '"' ∈ ('j' :: 's' :: 'o' :: 'n' :: ([] : List Char)) := by
    rw [hsplit]
    exact List.mem_append_right _ (by simp)
  exact absurd hqm (by decide)

theorem chunked_refl (pat : List Char) : ∀ s, Chunked pat s s := by
  intro s
  induction s with
  | nil => exact .nil
  | cons c t ih => exact .keep c t t ih

theorem replF_chunked (pat : List Char) (hp : pat ≠ []) :
    ∀ n s, Chunked pat s (replF pat n s) := by
  intro n
  induction n with
  | zero => intro s; exact chunked_refl pat s
  | succ n ih =>
    intro s
    cases s with
    | nil =>
      rw [replF_nil pat hp]
      exact .nil
    | cons c t =>
      rw [replF_succ_cons]
      by_cases hl : leadsWith pat (c :: t) = true
      · obtain ⟨r, hr⟩ := (leadsWith_iff _ _).mp hl
        rw [if_pos hl, hr, List.drop_left]
        exact .skip r _ (ih r)
      · rw [if_neg hl]
        exact .keep c t _ (ih t)

theorem repl_chunked (pat s : List Char) (hp : pat ≠ []) :
    Chunked pat s (repl pat s) :=
  replF_chunked pat hp s.length s

theorem chunked_quote_mem (pat : List Char) (hq : '"' ∉ pat) :
    ∀ s out, Chunked pat s out → '"' ∈ s → '"' ∈ out := by
  intro s out h
  induction h with
  | nil => intro h2; simp at h2
  | keep c s2 out2 hch ih =>
    intro h2
    rcases List.mem_cons.mp h2 with h3 | h3
    · rw [h3]
      simp
    · exact List.mem_cons_of_mem c (ih h3)
  | skip s2 out2 hch ih =>
    intro h2
    rcases List.mem_append.mp h2 with h3 | h3
    · exact absurd h3 hq
    · exact ih h3

theorem chunked_prefix (pat : List Char) (hq : '"' ∉ pat) :
    ∀ s out, Chunked pat s out →
    ∀ q v, out = q ++ '\n' :: v → '"' ∉ q →
      ∃ mid v', s = mid ++ '\n' :: v' ∧ '"' ∉ mid := by
  intro s out h
  induction h with
  | nil =>
    intro q v h2 _
    cases q <;> simp at h2
  | keep c s2 out2 hch ih =>
    intro q v h2 hqf
    cases q with
    | nil =>
      injection h2 with h3 _
      exact ⟨[], s2, by rw [h3]; rfl, by simp⟩
    | cons q0 q2 =>
      injection h2 with h3 h4
      obtain ⟨mid, v', hs, hm⟩ := ih q2 v h4 (fun hin => hqf (by simp [hin]))
      refine ⟨c :: mid, v', by rw [hs]; rfl, ?_⟩
      intro hin
      rcases List.mem_cons.mp hin with h5 | h5
      · apply hqf
        rw [h5, h3]
        simp
      · exact hm h5
  | skip s2 out2 hch ih =>
    intro q v h2 hqf
    obtain ⟨mid, v', hs, hm⟩ := ih q v h2 hqf
    refine ⟨pat ++ mid, v', by rw [hs, List.append_assoc], ?_⟩
    intro hin
    rcases List.mem_append.mp hin with h5 | h5
    · exact hq h5
    · exact hm h5

theorem good_tail_gen (x l : List Char) (hg : Good (x ++ l)) : Good l := by
  intro pre suf h
  exact hg (x ++ pre) suf (by rw [h, List.append_assoc])

theorem good_chunked_no_p3occ (pat : List Char) (hq : '"' ∉ pat) :
    ∀ s out, Chunked pat s out → Good s → ¬ OccursIn "```\n".data out := by
  intro s out h
  induction h with
  | nil =>
    rintro - ⟨u, v, h2⟩
    cases u <;> simp at h2
  | keep c s2 out2 hch ih =>
    rintro hg ⟨u, v, h2⟩
    rw [show "```\n".data = '`' :: '`' :: '`' :: '\n' :: [] from rfl] at h2
    cases u with
    | cons u0 u2 =>
      injection h2 with h3 h4
      refine ih (good_tail_gen [c] s2 hg) ⟨u2, v, ?_⟩
      rw [h4]
      rfl
    | nil =>
      rw [List.nil_append] at h2
      injection h2 with h3 h4
      obtain ⟨mid, v', hs, hm⟩ :=
        chunked_prefix pat hq s2 out2 hch ['`', '`'] v (by rw [h4]; rfl)
          (by decide)
      obtain ⟨mid2, rest, hsplit, hmid2⟩ := hg [] s2 (by rw [h3]; rfl)
      rw [hs] at hsplit
      rcases List.append_eq_append_iff.mp hsplit with ⟨a, ha1, ha2⟩ | ⟨a, ha1, ha2⟩
      · cases a with
        | nil =>
          rw [List.nil_append] at ha2
          injection ha2 with hx _
          exact absurd hx (by decide)
        | cons a0 a2 =>
          injection ha2 with hx _
          have h6 : a0 ∈ mid2 := by
            rw [ha1]
            exact List.mem_append_right _ (by simp)
          have h7 := (hmid2 a0 h6).2
          rw [← hx] at h7
          have h8 : ('\n').toNat = 10 := rfl
          omega
      · cases a with
        | nil =>
          rw [List.nil_append] at ha2
          injection ha2 with hx _
          exact absurd hx (by decide)
        | cons a0 a2 =>
          injection ha2 with hx _
          apply hm
          rw [hx, ha1]
          exact List.mem_append_right _ (by simp)
  | skip s2 out2 hch ih =>
    intro hg hocc
    exact ih (good_tail_gen pat s2 hg) hocc

theorem good_chunked_no_ends (pat : List Char) (hq : '"' ∉ pat) :
    ∀ s out, Chunked pat s out → Good s → ∀ q, out ≠ q ++ "```".data := by
  intro s out h
  induction h with
  | nil =>
    intro _ q h2
    cases q <;> simp at h2
  | keep c s2 out2 hch ih =>
    intro hg q h2
    rw [show "```".data = '`' :: '`' :: '`' :: [] from rfl] at h2
    cases q with
    | cons q0 q2 =>
      injection h2 with h3 h4
      refine ih (good_tail_gen [c] s2 hg) q2 ?_
      rw [h4]
      rfl
    | nil =>
      rw [List.nil_append] at h2
      injection h2 with h3 h4
      obtain ⟨mid2, rest, hsplit, -⟩ := hg [] s2 (by rw [h3]; rfl)
      have hqs : '"' ∈ s2 := by
        rw [hsplit]
        exact List.mem_append_right _ (by simp)
      have h5 := chunked_quote_mem pat hq s2 out2 hch hqs
      rw [h4] at h5
      exact absurd h5 (by decide)
  | skip s2 out2 hch ih =>
    intro hg q h2
    exact ih (good_tail_gen pat s2 hg) q h2

theorem no_occ_p1_junction (J : List Char)
    (ha : ¬ OccursIn "```json\n".data J)
    (hb : ∀ q, J ≠ q ++ "```json".data) :
    ¬ OccursIn "```json\n".data (J ++ "\n```".data) := by
  rintro ⟨u, v, hE⟩
  rw [show "\n```".data = '\n' :: "```".data from rfl] at hE
  rcases List.append_eq_append_iff.mp hE with ⟨a, ha1, ha2⟩ | ⟨a, ha1, ha2⟩
  · have hR := congrArg List.length ha2
    rw [show ('\n' :: "```".data).length = 4 from rfl,
      List.length_append, List.length_append,
      show "```json\n".data.length = 8 from rfl] at hR
    omega
  · rcases List.append_eq_append_iff.mp ha2 with ⟨b, hb1, hb2⟩ | ⟨b, hb1, hb2⟩
    · exact ha ⟨u, b, by rw [ha1, hb1]⟩
    · cases b with
      | nil =>
        have hap : a = "```json\n".data := by simpa using hb1.symm
        exact ha ⟨u, [], by rw [ha1, hap, List.append_nil]⟩
      | cons b0 b2 =>
        injection hb2 with hx _
        obtain ⟨haa, -⟩ := p1_nl_split a b2 (by rw [hb1, ← hx])
        exact hb u (by rw [ha1, haa])

theorem no_occ_p3_junction (J2 : List Char)
    (hA : ¬ OccursIn "```\n".data J2)
    (hB : ∀ q, J2 ≠ q ++ "```".data) :
    ¬ OccursIn "```\n".data (J2 ++ "\n```".data) := by
  rintro ⟨u, v, hE⟩
  rw [show "\n```".data = '\n' :: "```".data from rfl] at hE
  rcases List.append_eq_append_iff.mp hE with ⟨a, ha1, ha2⟩ | ⟨a, ha1, ha2⟩
  · have hR := congrArg List.length ha2
    rw [show ('\n' :: "```".data).length = 4 from rfl,
      List.length_append, List.length_append,
      show "```\n".data.length = 4 from rfl] at hR
    have haz : a = [] := List.eq_nil_of_length_eq_zero (by omega)
    have hvz : v = [] := List.eq_nil_of_length_eq_zero (by omega)
    rw [haz, hvz, List.nil_append, List.append_nil] at ha2
    injection ha2 with hx _
    exact absurd hx (by decide)
  · rcases List.append_eq_append_iff.mp ha2 with ⟨b, hb1, hb2⟩ | ⟨b, hb1, hb2⟩
    · exact hA ⟨u, b, by rw [ha1, hb1]⟩
    · cases b with
      | nil =>
        have hap : a = "```\n".data := by simpa using hb1.symm
        exact hA ⟨u, [], by rw [ha1, hap, List.append_nil]⟩
      | cons b0 b2 =>
        injection hb2 with hx _
        obtain ⟨haa, -⟩ := p3_nl_split a b2 (by rw [hb1, ← hx])
        exact hB u (by rw [ha1, haa])

theorem dropWhile_nil_all (p : Char → Bool) :
    ∀ l : List Char, l.dropWhile p = [] → ∀ c ∈ l, p c = true := by
  intro l
  induction l with
  | nil => intro _ c hc; simp at hc
  | cons a t ih =>
    intro h c hc
    rw [List.dropWhile_cons] at h
    by_cases ha : p a = true
    · rw [if_pos ha] at h
      rcases List.mem_cons.mp hc with h2 | h2
      · rw [h2]; exact ha
      · exact ih h c h2
    · rw [if_neg ha] at h
      cases h

theorem dropWhile_append_ne (p : Char → Bool) :
    ∀ (l x : List Char) (c : Char) (t : List Char),
      l.dropWhile p = c :: t → (l ++ x).dropWhile p = (c :: t) ++ x := by
  intro l
  induction l with
  | nil => intro x c t h; cases h
  | cons a u ih =>
    intro x c t h
    rw [List.dropWhile_cons] at h
    rw [List.cons_append, List.dropWhile_cons]
    by_cases ha : p a = true
    · rw [if_pos ha] at h ⊢
      exact ih x c t h
    · rw [if_neg ha] at h ⊢
      rw [← h]
      rfl

theorem strip_append_nl (l : List Char) :
    pyStrip (l ++ ['\n']) = pyStrip l := by
  rw [pyStrip, pyStrip]
  cases hD : l.dropWhile isPyWs with
  | nil =>
    have hall : ∀ c ∈ l, isPyWs c = true := dropWhile_nil_all isPyWs l hD
    rw [dropWhile_all_append isPyWs l ['\n'] hall]
    rfl
  | cons c t =>
    rw [dropWhile_append_ne isPyWs l ['\n'] c t hD]
    rw [List.reverse_append,
      show (['\n'] : List Char).reverse = ['\n'] from rfl,
      show (['\n'] : List Char) ++ (c :: t).reverse
        = '\n' :: (c :: t).reverse from rfl,
      List.dropWhile_cons,
      show isPyWs '\n' = true from rfl]
    simp

/-- Cleaning a fenced JSON text yields the same string as cleaning the bare
text: the fence pieces are removed whole and the `Good` invariant prevents
the four `replace` passes from interacting with the payload differently in
the two cases. -/
theorem clean_fenceWrap (J : List Char) (hg : Good J) :
    cleanResponse (fenceWrap J) = cleanResponse J := by
  have hp1ne : "```json\n".data ≠ [] := by decide
  have hp2ne : "```json".data ≠ [] := by decide
  have hp3ne : "```\n".data ≠ [] := by decide
  have hp4ne : "```".data ≠ [] := by decide
  have e0 : fenceWrap J = "```json\n".data ++ (J ++ "\n```".data) := by
    rw [fenceWrap, List.append_assoc]
  have e1 : repl "```json\n".data (fenceWrap J) = J ++ "\n```".data := by
    rw [e0, repl_head _ _ hp1ne]
    exact repl_no_occur _ _ hp1ne
      (no_occ_p1_junction J (good_no_occ_p1 J hg) (good_no_ends_p2 J hg))
  have e2 : repl "```json".data (J ++ "\n```".data)
      = repl "```json".data J ++ "\n```".data := by
    rw [show "\n```".data = '\n' :: "```".data from rfl,
      repl_append_nl _ hp2ne (by decide) _ J.length J (le_refl _)]
    congr 1
  have hch : Chunked "```json".data J (repl "```json".data J) :=
    repl_chunked _ _ hp2ne
  have hA : ¬ OccursIn "```\n".data (repl "```json".data J) :=
    good_chunked_no_p3occ _ (by decide) J _ hch hg
  have hB : ∀ q, repl "```json".data J ≠ q ++ "```".data :=
    good_chunked_no_ends _ (by decide) J _ hch hg
  have e3 : repl "```\n".data (repl "```json".data J ++ "\n```".data)
      = repl "```json".data J ++ "\n```".data :=
    repl_no_occur _ _ hp3ne (no_occ_p3_junction _ hA hB)
  have e3u : repl "```\n".data (repl "```json".data J)
      = repl "```json".data J := repl_no_occur _ _ hp3ne hA
  have e4 : repl "```".data (repl "```json".data J ++ "\n```".data)
      = repl "```".data (repl "```json".data J) ++ ['\n'] := by
    rw [show "\n```".data = '\n' :: "```".data from rfl,
      repl_append_nl _ hp4ne (by decide) _
        (repl "```json".data J).length (repl "```json".data J) (le_refl _)]
    congr 1
  have u1 : repl "```json\n".data J = J :=
    repl_no_occur _ _ hp1ne (good_no_occ_p1 J hg)
  rw [cleanResponse, cleanResponse, e1, e2, e3, e4, u1, e3u]
  exact strip_append_nl _

theorem good_no_backtick (l : List Char) (h : '`' ∉ l) : Good l := by
  intro pre suf hE
  exfalso
  apply h
  rw [hE]
  exact List.mem_append.mpr (Or.inr (List.mem_cons_self _ _))

theorem good_append (a b : List Char) (ha : Good a) (hb : Good b) :
    Good (a ++ b) := by
  intro pre suf hE
  rcases List.append_eq_append_iff.mp hE with ⟨x, hx1, hx2⟩ | ⟨x, hx1, hx2⟩
  · exact hb x suf hx2
  · cases x with
    | nil => exact hb [] suf (by simpa using hx2.symm)
    | cons x0 x1 =>
      rw [List.cons_append] at hx2
      injection hx2 with h0 h1
      obtain ⟨mid, rest, hm, hcl⟩ := ha pre x1 (by rw [hx1, ← h0])
      exact ⟨mid, rest ++ b, by rw [h1, hm]; simp, hcl⟩

theorem good_suffix_quote : ∀ (b tail : List Char),
    (∀ c ∈ b, 32 ≤ c.toNat) →
    ∃ mid rest, b ++ '"' :: tail = mid ++ '"' :: rest
      ∧ ∀ c ∈ mid, c ≠ '"' ∧ 32 ≤ c.toNat := by
  intro b
  induction b with
  | nil =>
    intro tail _
    exact ⟨[], tail, rfl, by intro c hc; simp at hc⟩
  | cons a b' ih =>
    intro tail hall
    by_cases ha : a = '"'
    · exact ⟨[], b' ++ '"' :: tail, by rw [ha]; rfl,
        by intro c hc; simp at hc⟩
    · obtain ⟨mid, rest, hm, hcl⟩ :=
        ih tail (fun c hc => hall c (List.mem_cons_of_mem a hc))
      refine ⟨a :: mid, rest, by rw [List.cons_append, hm]; rfl, ?_⟩
      intro c hc
      rcases List.mem_cons.mp hc with h | h
      · subst h
        exact ⟨ha, hall c (List.mem_cons_self c b')⟩
      · exact hcl c h

theorem good_strPiece (content : List Char)
    (h32 : ∀ c ∈ content, 32 ≤ c.toNat) :
    Good ('"' :: content ++ ['"']) := by
  intro pre suf hE
  cases pre with
  | nil =>
    rw [List.nil_append] at hE
    injection hE with h0 _
    exact absurd h0 (by decide)
  | cons p0 pre' =>
    rw [List.cons_append] at hE
    injection hE with h0 h1
    rcases List.append_eq_append_iff.mp h1 with ⟨x, hx1, hx2⟩ | ⟨x, hx1, hx2⟩
    · cases x with
      | nil =>
        rw [List.nil_append] at hx2
        injection hx2 with h2 _
        exact absurd h2 (by decide)
      | cons x0 x1 =>
        rw [List.cons_append] at hx2
        injection hx2 with h2 h3
        rcases List.append_eq_nil.mp h3.symm with ⟨-, h4⟩
        simp at h4
    · cases x with
      | nil =>
        rw [List.nil_append] at hx2
        injection hx2 with h2 _
        exact absurd h2 (by decide)
      | cons x0 x1 =>
        rw [List.cons_append] at hx2
        injection hx2 with h2 h3
        have hsub : ∀ c ∈ x1, 32 ≤ c.toNat := by
          intro c hc
          apply h32 c
          rw [hx1]
          exact List.mem_append.mpr (Or.inr (List.mem_cons_of_mem x0 hc))
        obtain ⟨mid, rest, hm, hcl⟩ := good_suffix_quote x1 [] hsub
        exact ⟨mid, rest, by rw [h3]; exact hm, hcl⟩

theorem good_ws_take (s : List Char) : Good (s.takeWhile wsJson) :=
  good_no_backtick _
    (fun hmem => absurd (List.mem_takeWhile_imp hmem) (by decide))

theorem skipWs_decomp (s : List Char) :
    s = s.takeWhile wsJson ++ skipWs s := by
  rw [skipWs]
  exact (List.takeWhile_append_dropWhile wsJson s).symm

theorem good_skipWs_comp (s rest : List Char)
    (h : ∃ raw, skipWs s = raw ++ rest ∧ Good raw) :
    ∃ raw, s = raw ++ rest ∧ Good raw := by
  obtain ⟨raw, h1, h2⟩ := h
  refine ⟨s.takeWhile wsJson ++ raw, ?_, good_append _ _ (good_ws_take s) h2⟩
  rw [List.append_assoc, ← h1]
  exact skipWs_decomp s

theorem parseStr_split : ∀ (n : Nat) (s : List Char), s.length ≤ n →
    ∀ content rest, parseStr s = some (content, rest) →
      s = content ++ '"' :: rest ∧ ∀ c ∈ content, 32 ≤ c.toNat := by
  intro n
  induction n with
  | zero =>
    intro s hle content rest h
    rw [List.eq_nil_of_length_eq_zero (Nat.le_zero.mp hle)] at h
    exact Option.noConfusion h
  | succ n ih =>
    intro s hle content rest h
    cases s with
    | nil => exact Option.noConfusion h
    | cons c r =>
      unfold parseStr at h
      by_cases hq : c = '"'
      · rw [if_pos hq] at h
        injection h with h1
        injection h1 with h2 h3
        subst h2
        subst h3
        subst hq
        refine ⟨rfl, ?_⟩
        intro x hx
        simp at hx
      · rw [if_neg hq] at h
        by_cases hc : c.toNat < 32
        · rw [if_pos hc] at h
          exact Option.noConfusion h
        · rw [if_neg hc] at h
          by_cases hb : c = '\\'
          · rw [if_pos hb] at h
            split at h
            · exact Option.noConfusion h
            · next e r' =>
              by_cases hec : e.toNat < 32
              · rw [if_pos hec] at h
                exact Option.noConfusion h
              · rw [if_neg hec] at h
                cases hp : parseStr r' with
                | none =>
                  rw [hp] at h
                  exact Option.noConfusion h
                | some p =>
                  rw [hp, Option.map_some'] at h
                  injection h with h1
                  injection h1 with h2 h3
                  have hlen : r'.length ≤ n := by
                    simp only [List.length_cons] at hle
                    omega
                  obtain ⟨hs1, hs2⟩ := ih r' hlen p.1 p.2 (by rw [hp])
                  subst h2
                  subst h3
                  subst hb
                  refine ⟨by rw [hs1]; rfl, ?_⟩
                  intro x hx
                  rcases List.mem_cons.mp hx with h4 | h4
                  · subst h4
                    decide
                  · rcases List.mem_cons.mp h4 with h5 | h5
                    · subst h5
                      omega
                    · exact hs2 x h5
          · rw [if_neg hb] at h
            cases hp : parseStr r with
            | none =>
              rw [hp] at h
              exact Option.noConfusion h
            | some p =>
              rw [hp, Option.map_some'] at h
              injection h with h1
              injection h1 with h2 h3
              have hlen : r.length ≤ n := by
                simp only [List.length_cons] at hle
                omega
              obtain ⟨hs1, hs2⟩ := ih r hlen p.1 p.2 (by rw [hp])
              subst h2
              subst h3
              refine ⟨by rw [hs1]; rfl, ?_⟩
              intro x hx
              rcases List.mem_cons.mp hx with h4 | h4
              · subst h4
                omega
              · exact hs2 x h4

theorem parseMemberRest_good
    (pv : List Char → Option (Json × List Char))
    (pt : List Char → Option (List (List Char × Json) × List Char))
    (hpv : ∀ s v rest, pv s = some (v, rest) → ∃ raw, s = raw ++ rest ∧ Good raw)
    (hpt : ∀ s vs rest, pt s = some (vs, rest) → ∃ raw, s = raw ++ rest ∧ Good raw) :
    ∀ k r1 kvs r4, parseMemberRest pv pt k r1 = some (kvs, r4) →
      ∃ raw, r1 = raw ++ r4 ∧ Good raw := by
  intro k r1 kvs r4 h
  unfold parseMemberRest at h
  cases hsw : skipWs r1 with
  | nil =>
    rw [hsw] at h
    exact Option.noConfusion h
  | cons c2 r2 =>
    simp only [hsw] at h
    by_cases hc : c2 = ':'
    · rw [if_pos hc] at h
      subst hc
      cases hv : pv (skipWs r2) with
      | none =>
        rw [hv] at h
        exact Option.noConfusion h
      | some q =>
        obtain ⟨v, r3⟩ := q
        simp only [hv] at h
        cases ht : pt (skipWs r3) with
        | none =>
          rw [ht] at h
          exact Option.noConfusion h
        | some q2 =>
          obtain ⟨kvs1, r5⟩ := q2
          simp only [ht] at h
          injection h with h1
          injection h1 with h2 h3
          obtain ⟨rawV, hA1, hA2⟩ := good_skipWs_comp r2 r3 (hpv _ _ _ hv)
          obtain ⟨rawT, hB1, hB2⟩ := good_skipWs_comp r3 r5 (hpt _ _ _ ht)
          set tw := r1.takeWhile wsJson with htw
          have hr1 : r1 = tw ++ (':' :: r2) := by
            have hd := skipWs_decomp r1
            rw [hsw] at hd
            exact hd
          refine ⟨tw ++ (':' :: (rawV ++ rawT)), ?_, ?_⟩
          · rw [← h3, hr1, hA1, hB1]
            simp
          · have htg : Good tw := by
              rw [htw]
              exact good_ws_take r1
            have hcg : Good [':'] := good_no_backtick _ (by decide)
            exact good_append _ _ htg
              (good_append [':'] _ hcg (good_append _ _ hA2 hB2))
    · rw [if_neg hc] at h
      exact Option.noConfusion h

theorem drop_len_append (pat t : List Char) (k : Nat) (hk : pat.length = k) :
    (pat ++ t).drop k = t := by
  rw [← hk]
  exact List.drop_left pat t

theorem parse_good : ∀ n : Nat,
    (∀ s v rest, parseVal n s = some (v, rest) →
      ∃ raw, s = raw ++ rest ∧ Good raw)
  ∧ (∀ s v rest, parseArr n s = some (v, rest) →
      ∃ raw, s = raw ++ rest ∧ Good raw)
  ∧ (∀ s vs rest, parseArrTail n s = some (vs, rest) →
      ∃ raw, s = raw ++ rest ∧ Good raw)
  ∧ (∀ s v rest, parseObj n s = some (v, rest) →
      ∃ raw, s = raw ++ rest ∧ Good raw)
  ∧ (∀ s kvs rest, parseObjTail n s = some (kvs, rest) →
      ∃ raw, s = raw ++ rest ∧ Good raw) := by
  intro n
  induction n with
  | zero =>
    refine ⟨?_, ?_, ?_, ?_, ?_⟩ <;> intro s a rest h <;>
      exact Option.noConfusion h
  | succ n ih =>
    obtain ⟨ihV, ihA, ihAT, ihO, ihOT⟩ := ih
    have hMR := parseMemberRest_good (parseVal n) (parseObjTail n) ihV ihOT
    refine ⟨?_, ?_, ?_, ?_, ?_⟩
    · intro s v rest h
      unfold parseVal at h
      by_cases h1 : leadsWith "null".data s = true
      · rw [if_pos h1] at h
        injection h with ha
        injection ha with ha1 ha2
        obtain ⟨t, ht⟩ := (leadsWith_iff _ _).mp h1
        refine ⟨"null".data, ?_, good_no_backtick _ (by decide)⟩
        rw [← ha2, ht, drop_len_append "null".data t 4 rfl]
      · rw [if_neg h1] at h
        by_cases h2 : leadsWith "true".data s = true
        · rw [if_pos h2] at h
          injection h with ha
          injection ha with ha1 ha2
          obtain ⟨t, ht⟩ := (leadsWith_iff _ _).mp h2
          refine ⟨"true".data, ?_, good_no_backtick _ (by decide)⟩
          rw [← ha2, ht, drop_len_append "true".data t 4 rfl]
        · rw [if_neg h2] at h
          by_cases h3 : leadsWith "false".data s = true
          · rw [if_pos h3] at h
            injection h with ha
            injection ha with ha1 ha2
            obtain ⟨t, ht⟩ := (leadsWith_iff _ _).mp h3
            refine ⟨"false".data, ?_, good_no_backtick _ (by decide)⟩
            rw [← ha2, ht, drop_len_append "false".data t 5 rfl]
          · rw [if_neg h3] at h
            split at h
            · exact Option.noConfusion h
            · next c r =>
              by_cases hq : c = '"'
              · rw [if_pos hq] at h
                cases hp : parseStr r with
                | none =>
                  rw [hp] at h
                  exact Option.noConfusion h
                | some p =>
                  rw [hp, Option.map_some'] at h
                  injection h with ha
                  injection ha with ha1 ha2
                  obtain ⟨hs1, hs2⟩ :=
                    parseStr_split r.length r (le_refl _) p.1 p.2 (by rw [hp])
                  subst hq
                  refine ⟨'"' :: p.1 ++ ['"'], ?_, good_strPiece p.1 hs2⟩
                  rw [← ha2, hs1]
                  simp
              · rw [if_neg hq] at h
                by_cases hbr : c = '['
                · rw [if_pos hbr] at h
                  obtain ⟨raw, hr1, hr2⟩ := good_skipWs_comp r rest (ihA _ _ _ h)
                  subst hbr
                  refine ⟨'[' :: raw, ?_, ?_⟩
                  · rw [hr1, List.cons_append]
                  · exact good_append ['['] raw (good_no_backtick _ (by decide)) hr2
                · rw [if_neg hbr] at h
                  by_cases hbo : c = '\x7b'
                  · rw [if_pos hbo] at h
                    obtain ⟨raw, hr1, hr2⟩ := good_skipWs_comp r rest (ihO _ _ _ h)
                    subst hbo
                    refine ⟨'\x7b' :: raw, ?_, ?_⟩
                    · rw [hr1, List.cons_append]
                    · exact good_append ['\x7b'] raw
                        (good_no_backtick _ (by decide)) hr2
                  · rw [if_neg hbo] at h
                    by_cases hd : (c.isDigit || c = '-') = true
                    · rw [if_pos hd] at h
                      injection h with ha
                      injection ha with ha1 ha2
                      refine ⟨(c :: r).takeWhile numChar, ?_, ?_⟩
                      · rw [← ha2]
                        exact (List.takeWhile_append_dropWhile numChar (c :: r)).symm
                      · refine good_no_backtick _ ?_
                        intro hmem
                        exact absurd (List.mem_takeWhile_imp hmem) (by decide)
                    · rw [if_neg hd] at h
                      exact Option.noConfusion h
    · intro s v rest h
      unfold parseArr at h
      split at h
      · exact Option.noConfusion h
      · next c r =>
        by_cases hbk : c = ']'
        · rw [if_pos hbk] at h
          injection h with ha
          injection ha with ha1 ha2
          subst hbk
          refine ⟨[']'], ?_, good_no_backtick _ (by decide)⟩
          rw [← ha2]
          rfl
        · rw [if_neg hbk] at h
          cases hv : parseVal n (c :: r) with
          | none =>
            rw [hv] at h
            exact Option.noConfusion h
          | some q =>
            obtain ⟨v1, r2⟩ := q
            simp only [hv] at h
            cases ht : parseArrTail n (skipWs r2) with
            | none =>
              rw [ht] at h
              exact Option.noConfusion h
            | some q2 =>
              obtain ⟨vs1, r3⟩ := q2
              simp only [ht] at h
              injection h with ha
              injection ha with ha1 ha2
              obtain ⟨rawV, hA1, hA2⟩ := ihV _ _ _ hv
              obtain ⟨rawT, hB1, hB2⟩ := good_skipWs_comp r2 r3 (ihAT _ _ _ ht)
              refine ⟨rawV ++ rawT, ?_, good_append _ _ hA2 hB2⟩
              rw [← ha2, hA1, hB1]
              simp
    · intro s vs rest h
      unfold parseArrTail at h
      split at h
      · exact Option.noConfusion h
      · next c r =>
        by_cases hbk : c = ']'
        · rw [if_pos hbk] at h
          injection h with ha
          injection ha with ha1 ha2
          subst hbk
          refine ⟨[']'], ?_, good_no_backtick _ (by decide)⟩
          rw [← ha2]
          rfl
        · rw [if_neg hbk] at h
          by_cases hcm : c = ','
          · rw [if_pos hcm] at h
            cases hv : parseVal n (skipWs r) with
            | none =>
              rw [hv] at h
              exact Option.noConfusion h
            | some q =>
              obtain ⟨v1, r2⟩ := q
              simp only [hv] at h
              cases ht : parseArrTail n (skipWs r2) with
              | none =>
                rw [ht] at h
                exact Option.noConfusion h
              | some q2 =>
                obtain ⟨vs1, r3⟩ := q2
                simp only [ht] at h
                injection h with ha
                injection ha with ha1 ha2
                obtain ⟨rawV, hA1, hA2⟩ := good_skipWs_comp r r2 (ihV _ _ _ hv)
                obtain ⟨rawT, hB1, hB2⟩ := good_skipWs_comp r2 r3 (ihAT _ _ _ ht)
                subst hcm
                refine ⟨',' :: (rawV ++ rawT), ?_, ?_⟩
                · rw [← ha2, hA1, hB1]
                  simp
                · exact good_append [','] _ (good_no_backtick _ (by decide))
                    (good_append _ _ hA2 hB2)
          · rw [if_neg hcm] at h
            exact Option.noConfusion h
    · intro s v rest h
      unfold parseObj at h
      split at h
      · exact Option.noConfusion h
      · next c r =>
        by_cases hbc : c = '\x7d'
        · rw [if_pos hbc] at h
          injection h with ha
          injection ha with ha1 ha2
          subst hbc
          refine ⟨['\x7d'], ?_, good_no_backtick _ (by decide)⟩
          rw [← ha2]
          rfl
        · rw [if_neg hbc] at h
          by_cases hq : c = '"'
          · rw [if_pos hq] at h
            cases hp : parseStr r with
            | none =>
              rw [hp] at h
              exact Option.noConfusion h
            | some q =>
              obtain ⟨k, r1⟩ := q
              simp only [hp] at h
              cases hm : parseMemberRest (parseVal n) (parseObjTail n) k r1 with
              | none =>
                rw [hm] at h
                exact Option.noConfusion h
              | some q2 =>
                obtain ⟨kvs1, r4⟩ := q2
                simp only [hm] at h
                injection h with ha
                injection ha with ha1 ha2
                obtain ⟨hs1, hs2⟩ :=
                  parseStr_split r.length r (le_refl _) k r1 (by rw [hp])
                obtain ⟨rawM, hM1, hM2⟩ := hMR k r1 kvs1 r4 hm
                subst hq
                refine ⟨('"' :: k ++ ['"']) ++ rawM, ?_,
                  good_append _ _ (good_strPiece k hs2) hM2⟩
                rw [← ha2, hs1, hM1]
                simp
          · rw [if_neg hq] at h
            exact Option.noConfusion h
    · intro s kvs rest h
      unfold parseObjTail at h
      split at h
      · exact Option.noConfusion h
      · next c r =>
        by_cases hbc : c = '\x7d'
        · rw [if_pos hbc] at h
          injection h with ha
          injection ha with ha1 ha2
          subst hbc
          refine ⟨['\x7d'], ?_, good_no_backtick _ (by decide)⟩
          rw [← ha2]
          rfl
        · rw [if_neg hbc] at h
          by_cases hcm : c = ','
          · rw [if_pos hcm] at h
            cases hsw : skipWs r with
            | nil =>
              rw [hsw] at h
              exact Option.noConfusion h
            | cons c1 r1 =>
              simp only [hsw] at h
              by_cases hq1 : c1 = '"'
              · rw [if_pos hq1] at h
                cases hp : parseStr r1 with
                | none =>
                  rw [hp] at h
                  exact Option.noConfusion h
                | some q =>
                  obtain ⟨k, r2⟩ := q
                  simp only [hp] at h
                  obtain ⟨hs1, hs2⟩ :=
                    parseStr_split r1.length r1 (le_refl _) k r2 (by rw [hp])
                  obtain ⟨rawM, hM1, hM2⟩ := hMR k r2 kvs rest h
                  subst hcm
                  subst hq1
                  set tw := r.takeWhile wsJson with htw
                  have hr : r = tw ++ ('"' :: r1) := by
                    have hd := skipWs_decomp r
                    rw [hsw] at hd
                    exact hd
                  refine ⟨',' :: (tw ++ ('"' :: k ++ ['"']) ++ rawM), ?_, ?_⟩
                  · rw [hr, hs1, hM1]
                    simp
                  · have htg : Good tw := by
                      rw [htw]
                      exact good_ws_take r
                    exact good_append [','] _ (good_no_backtick _ (by decide))
                      (good_append _ _
                        (good_append _ _ htg (good_strPiece k hs2)) hM2)
              · rw [if_neg hq1] at h
                exact Option.noConfusion h
          · rw [if_neg hcm] at h
            exact Option.noConfusion h

/-- A text accepted by `jsonParse` satisfies the backtick invariant: every
backtick lies inside a string literal, so a following quote with a clean gap
exists. -/
theorem good_of_parse (s : List Char) (v : Json) (h : jsonParse s = some v) :
    Good s := by
  unfold jsonParse at h
  cases hv : parseVal (2 * s.length + 2) (skipWs s) with
  | none =>
    rw [hv] at h
    exact Option.noConfusion h
  | some q =>
    obtain ⟨v0, rest⟩ := q
    simp only [hv] at h
    by_cases hr : skipWs rest = []
    · obtain ⟨raw, h1, h2⟩ :=
        good_skipWs_comp s rest ((parse_good _).1 _ _ _ hv)
      rw [skipWs] at hr
      have hws : ∀ c ∈ rest, wsJson c = true := dropWhile_nil_all wsJson rest hr
      have hrg : Good rest :=
        good_no_backtick _ (fun hm => absurd (hws _ hm) (by decide))
      rw [h1]
      exact good_append _ _ h2 hrg
    · rw [if_neg hr] at h
      exact Option.noConfusion h

/-- C4. For every valid JSON text `J` (one `jsonParse` accepts), a stage
agent parses the reply consisting of `J` wrapped in code-fence markers
(```` ```json\n…\n``` ````) to exactly the same outcome as the bare `J`:
the four `replace` calls of the cleaning chain delete the fence pieces and
leave the JSON text intact.  And a reply whose cleaned text parses as a
one-element JSON array is parsed as if that single element had been
returned directly (lines 272-282 of `src/orchestrator.py`). -/
theorem stage_agent_reply_parsing :
    (∀ J v, jsonParse J = some v →
      stageParse (fenceWrap J) = stageParse J)
  ∧ (∀ r v, jsonParse (cleanResponse r) = some (Json.arr [v]) →
      stageParse r = elemToFields v) := by
  constructor
  · intro J v h
    rw [stageParse, stageParse, clean_fenceWrap J (good_of_parse J v h)]
  · intro r v h
    simp only [stageParse, h, listFix]

/-- Witness for C4 at the concrete JSON texts `[1]` and `[[]]`. -/
theorem stage_agent_reply_parsing_witness :
    stageParse (fenceWrap "[1]".data) = stageParse "[1]".data
  ∧ stageParse "[[]]".data = elemToFields (Json.arr []) :=
  ⟨stage_agent_reply_parsing.1 "[1]".data (Json.arr [Json.num ['1']]) rfl,
   stage_agent_reply_parsing.2 "[[]]".data (Json.arr []) rfl⟩

end LogHeal
